import Mathlib

set_option linter.unusedSectionVars false

/-!
Shallow embedding of the Go package `avltrees` (file `avltrees.go`): a generic
AVL tree with subtree-size augmentation, parent back-references, order
statistics and bounded navigation.

Modelling conventions:
* A Go `*Node[K,V]` is the inductive `N K V`: `nil` is the nil pointer, and a
  `node` carries the Go fields `key value height size left right parent` plus
  an `id : Nat` that models the pointer identity of the allocated node.  The
  `parent` field stores the id of the parent node (`none` for a nil parent),
  exactly as the Go field stores a pointer.
* A Go `*Tree[K,V]` is the structure `T K V`; `nextId` models the allocator
  handing out fresh node identities (Go: fresh heap pointers).
* In-place mutation of a node becomes rebuilding the node value with the same
  `id`; Go loops become structural recursions with the loop variables as
  accumulator arguments.
* `cmp.Ordered` becomes `[LinearOrder K]`; Go `==` on keys is `=`.
* Functions returning `(*Node, bool)` return `Option (N K V)` (the bool is
  `isSome`).
* The Go iterators `InOrder`/`Range` (explicit-stack in-order walks yielding
  node snapshots) are modelled by the lists of (key, value) pairs the full
  walk yields, in yield order.
-/

namespace AvlGo

/-- Go `Node[K,V]`: key, value, height, size, id (pointer identity),
parent (id of parent node), left, right. -/
inductive N (K V : Type) where
  | nil : N K V
  | node (key : K) (value : V) (height : Nat) (size : Nat)
      (id : Nat) (parent : Option Nat) (left : N K V) (right : N K V) : N K V
deriving DecidableEq

namespace N

variable {K V : Type} [LinearOrder K]

/-- Go `height(n)`: 0 for nil, else the stored field. -/
def height : N K V → Nat
  | nil => 0
  | node _ _ h _ _ _ _ _ => h

/-- Subtree size as the Go code reads it: 0 for nil, else the stored field
(Go inlines this as `if n.left != nil { ... n.left.size }`). -/
def size : N K V → Nat
  | nil => 0
  | node _ _ _ s _ _ _ _ => s

/-- Key of the node a query returned (`n.Key()`); `none` for nil. -/
def rootKey : N K V → Option K
  | nil => none
  | node k _ _ _ _ _ _ _ => some k

/-- Value of the node a query returned (`n.Value()`); `none` for nil. -/
def rootValue : N K V → Option V
  | nil => none
  | node _ v _ _ _ _ _ _ => some v

/-- The (key, value) pair stored at the root of a subtree. -/
def rootEntry : N K V → Option (K × V)
  | nil => none
  | node k v _ _ _ _ _ _ => some (k, v)

/-- The id (pointer identity) of a node; `none` for nil. -/
def rootId : N K V → Option Nat
  | nil => none
  | node _ _ _ _ i _ _ _ => some i

/-- The stored parent field of a node; `none` for nil. -/
def parentOf : N K V → Option Nat
  | nil => none
  | node _ _ _ _ _ p _ _ => p

/-- Go `child.parent = p` (guarded by `child != nil`). -/
def setParent : N K V → Option Nat → N K V
  | nil, _ => nil
  | node k v h s i _ l r, p => node k v h s i p l r

/-- Go `updateSize(n)`: recompute height and size from the children's stored
metadata.  (Go writes `n.size = 1` then conditionally adds the children's
sizes; since `size nil = 0` this is `1 + size l + size r`.)  Never called on
nil in Go (it would dereference); we map nil to nil. -/
def updateSize : N K V → N K V
  | nil => nil
  | node k v _ _ i p l r =>
      node k v (max (height l) (height r) + 1) (1 + size l + size r) i p l r

/-- Go `balanceFactor(n) = height(n.left) - height(n.right)` (only called on
non-nil nodes). -/
def balanceFactor : N K V → Int
  | nil => 0
  | node _ _ _ _ _ _ l r => (height l : Int) - (height r : Int)

/-- Go `rotateLeft(z)`: the right child `y` becomes the subtree root.
`z.right = y.left` (reparented to `z` if present), `y.left = z`,
`y.parent = z.parent`, `z.parent = y`, then `updateSize(z)`, `updateSize(y)`.
Go dereferences `z` and `z.right`; those nil cases never arise. -/
def rotateLeft : N K V → N K V
  | nil => nil
  | node zk zv zh zs zi zp zl zr =>
      match zr with
      | nil => node zk zv zh zs zi zp zl nil
      | node yk yv yh ys yi _ yl yr =>
          let z' := updateSize (node zk zv zh zs zi (some yi) zl (setParent yl (some zi)))
          updateSize (node yk yv yh ys yi zp z' yr)

/-- Go `rotateRight(z)`: mirror of `rotateLeft`. -/
def rotateRight : N K V → N K V
  | nil => nil
  | node zk zv zh zs zi zp zl zr =>
      match zl with
      | nil => node zk zv zh zs zi zp nil zr
      | node yk yv yh ys yi _ yl yr =>
          let z' := updateSize (node zk zv zh zs zi (some yi) (setParent yr (some zi)) zr)
          updateSize (node yk yv yh ys yi zp yl z')

/-- Go `rebalance(n)`: `updateSize(n)`, compute the balance factor, perform
the four-case AVL rotation, returning the new subtree root. -/
def rebalance : N K V → N K V
  | nil => nil
  | node k v _ _ i p l r =>
      let h := max (height l) (height r) + 1
      let s := 1 + size l + size r
      let balance : Int := (height l : Int) - (height r : Int)
      if 1 < balance then
        if balanceFactor l < 0 then rotateRight (node k v h s i p (rotateLeft l) r)
        else rotateRight (node k v h s i p l r)
      else if balance < -1 then
        if 0 < balanceFactor r then rotateLeft (node k v h s i p l (rotateRight r))
        else rotateLeft (node k v h s i p l r)
      else node k v h s i p l r

/-- Go `insertRec(n, key, value, parent)`: recursive BST descent; a new leaf
(height 1, size 1, parent as given) is created at an absent position with a
fresh id, an equal key overwrites the value in place, and every node on the
unwind is rebalanced. -/
def insertRec : N K V → K → V → Option Nat → Nat → N K V × Bool
  | nil, key, value, parent, fresh => (node key value 1 1 fresh parent nil nil, true)
  | node k v h s i p l r, key, value, _, fresh =>
      if key < k then
        let res := insertRec l key value (some i) fresh
        (rebalance (node k v h s i p res.1 r), res.2)
      else if k < key then
        let res := insertRec r key value (some i) fresh
        (rebalance (node k v h s i p l res.1), res.2)
      else
        (node k value h s i p l r, false)

/-- Go `minNode(n)`: follow left children to the leftmost node (Go
dereferences `n`; nil input never arises). -/
def minNode : N K V → N K V
  | nil => nil
  | node k v h s i p l r =>
      match l with
      | nil => node k v h s i p nil r
      | node _ _ _ _ _ _ _ _ => minNode l

/-- Go `maxNode(n)`: follow right children to the rightmost node. -/
def maxNode : N K V → N K V
  | nil => nil
  | node k v h s i p l r =>
      match r with
      | nil => node k v h s i p l nil
      | node _ _ _ _ _ _ _ _ => maxNode r

/-- Go `deleteRec(n, key)`: recursive descent; a node with at most one child
is spliced out (the promoted child's parent is rewritten to the deleted
node's parent); a node with two children has the in-order successor's key and
value copied onto it and the successor deleted from the right subtree; every
node on the unwind path is rebalanced.  The inner `nil` match arm is
unreachable: `minNode` of a non-nil tree is non-nil (Go dereferences the
successor pointer). -/
def deleteRec : N K V → K → N K V × Bool
  | nil, _ => (nil, false)
  | node k v h s i p l r, key =>
      if key < k then
        let res := deleteRec l key
        (rebalance (node k v h s i p res.1 r), res.2)
      else if k < key then
        let res := deleteRec r key
        (rebalance (node k v h s i p l res.1), res.2)
      else
        match l, r with
        | nil, _ => (setParent r p, true)
        | node lk lv lh ls li lp ll lr, nil =>
            (setParent (node lk lv lh ls li lp ll lr) p, true)
        | node lk lv lh ls li lp ll lr, node rk rv rh rs ri rp rl rr =>
            match minNode (node rk rv rh rs ri rp rl rr) with
            | nil => (nil, true)
            | node sk sv _ _ _ _ _ _ =>
                let res := deleteRec (node rk rv rh rs ri rp rl rr) sk
                (rebalance (node sk sv h s i p
                  (node lk lv lh ls li lp ll lr) res.1), true)

/-- Go `Search` loop: BST descent returning the matching node. -/
def searchNode : N K V → K → Option (N K V)
  | nil, _ => none
  | node k v h s i p l r, key =>
      if key < k then searchNode l key
      else if k < key then searchNode r key
      else some (node k v h s i p l r)

/-- Go `Ceiling` loop: `result` is the best candidate so far. -/
def ceilingLoop (key : K) : N K V → Option (N K V) → Option (N K V)
  | nil, result => result
  | node k v h s i p l r, result =>
      if key = k then some (node k v h s i p l r)
      else if key < k then ceilingLoop key l (some (node k v h s i p l r))
      else ceilingLoop key r result

/-- Go `Floor` loop. -/
def floorLoop (key : K) : N K V → Option (N K V) → Option (N K V)
  | nil, result => result
  | node k v h s i p l r, result =>
      if key = k then some (node k v h s i p l r)
      else if key < k then floorLoop key l result
      else floorLoop key r (some (node k v h s i p l r))

/-- Go `Higher` loop. -/
def higherLoop (key : K) : N K V → Option (N K V) → Option (N K V)
  | nil, result => result
  | node k v h s i p l r, result =>
      if key < k then higherLoop key l (some (node k v h s i p l r))
      else higherLoop key r result

/-- Go `Lower` loop. -/
def lowerLoop (key : K) : N K V → Option (N K V) → Option (N K V)
  | nil, result => result
  | node k v h s i p l r, result =>
      if key ≤ k then lowerLoop key l result
      else lowerLoop key r (some (node k v h s i p l r))

/-- The (key, value) pairs yielded, in order, by the Go `InOrder` iterator
(explicit-stack in-order walk: left subtree, node, right subtree). -/
def entries : N K V → List (K × V)
  | nil => []
  | node k v _ _ _ _ l r => entries l ++ (k, v) :: entries r

/-- The in-order key sequence. -/
def keys (t : N K V) : List K := (entries t).map Prod.fst

/-- The (key, value) pairs yielded by the Go `Range` iterator: the same
in-order walk, yielding only keys in `[lo, hi)`, and not descending into the
right subtree of a node whose key is `≥ hi` (in the walk, `curr` is set to
nil instead of `n.right`). -/
def rangeList (lo hi : K) : N K V → List (K × V)
  | nil => []
  | node k v _ _ _ _ l r =>
      rangeList lo hi l
        ++ (if lo ≤ k ∧ k < hi then [(k, v)] else [])
        ++ (if hi ≤ k then [] else rangeList lo hi r)

/-- Go `Rank` loop with its `rank` accumulator (`leftSize` is the stored size
of the left child, 0 when absent). -/
def rankLoop (key : K) : N K V → Nat → Nat
  | nil, rank => rank
  | node k _ _ _ _ _ l r, rank =>
      if key < k then rankLoop key l rank
      else if key = k then rank + size l
      else rankLoop key r (rank + size l + 1)

/-- Go `Kth` loop: `k` is a Go `int`, so it is an `Int` here. -/
def kthLoop : N K V → Int → Option (N K V)
  | nil, _ => none
  | node key v h s i p l r, k =>
      if k < (size l : Int) then kthLoop l k
      else if (size l : Int) < k then kthLoop r (k - size l - 1)
      else some (node key v h s i p l r)

end N

/-- Go `Tree[K,V]`: the root pointer; `nextId` models the allocator of node
identities (fresh Go heap pointers). -/
structure T (K V : Type) where
  root : N K V
  nextId : Nat
deriving DecidableEq

namespace T

variable {K V : Type} [LinearOrder K]

/-- Go `New()`. -/
def New : T K V := ⟨N.nil, 0⟩

/-- Go `Clear(t)`. -/
def Clear (_ : T K V) : T K V := ⟨N.nil, 0⟩

/-- Go `Insert(t, key, value)`: the root is reassigned to the result of
`insertRec(t.Root, key, value, nil)`; returns the updated tree and the
`inserted` bool. -/
def Insert (t : T K V) (key : K) (value : V) : T K V × Bool :=
  let res := N.insertRec t.root key value none t.nextId
  (⟨res.1, t.nextId + 1⟩, res.2)

/-- Go `Delete(t, key)`: the root is reassigned to `deleteRec(t.Root, key)`
and, if non-nil, its parent is explicitly cleared. -/
def Delete (t : T K V) (key : K) : T K V × Bool :=
  let res := N.deleteRec t.root key
  (⟨N.setParent res.1 none, t.nextId⟩, res.2)

/-- Go `Search(t, key)`. -/
def Search (t : T K V) (key : K) : Option (N K V) :=
  N.searchNode t.root key

/-- Go `Min(t)`. -/
def Min (t : T K V) : Option (N K V) :=
  match t.root with
  | N.nil => none
  | N.node k v h s i p l r => some (N.minNode (N.node k v h s i p l r))

/-- Go `Max(t)`. -/
def Max (t : T K V) : Option (N K V) :=
  match t.root with
  | N.nil => none
  | N.node k v h s i p l r => some (N.maxNode (N.node k v h s i p l r))

/-- Go `Ceiling(t, key)`. -/
def Ceiling (t : T K V) (key : K) : Option (N K V) :=
  N.ceilingLoop key t.root none

/-- Go `Floor(t, key)`. -/
def Floor (t : T K V) (key : K) : Option (N K V) :=
  N.floorLoop key t.root none

/-- Go `Higher(t, key)`. -/
def Higher (t : T K V) (key : K) : Option (N K V) :=
  N.higherLoop key t.root none

/-- Go `Lower(t, key)`. -/
def Lower (t : T K V) (key : K) : Option (N K V) :=
  N.lowerLoop key t.root none

/-- Go `InOrder(t)`, as the list of yielded (key, value) snapshots. -/
def InOrder (t : T K V) : List (K × V) := N.entries t.root

/-- Go `Range(t, from, to)`, as the list of yielded (key, value) snapshots. -/
def Range (t : T K V) (lo hi : K) : List (K × V) := N.rangeList lo hi t.root

/-- Go `Rank(t, key)`. -/
def Rank (t : T K V) (key : K) : Nat := N.rankLoop key t.root 0

/-- Go `Kth(t, k)`. -/
def Kth (t : T K V) (k : Int) : Option (N K V) := N.kthLoop t.root k

/-- Go `Len(t)`: 0 for an empty tree, else the root's stored size. -/
def Len (t : T K V) : Nat := N.size t.root

end T

namespace N

variable {K V : Type} [LinearOrder K]

/-- The real height of the tree, ignoring the stored fields. -/
def realHeight : N K V → Nat
  | nil => 0
  | node _ _ _ _ _ _ l r => max (realHeight l) (realHeight r) + 1

/-- Height recurrence (spec §3): every stored height field equals
`1 + max` of the children's heights. -/
def HtOk : N K V → Prop
  | nil => True
  | node _ _ h _ _ _ l r => h = max (height l) (height r) + 1 ∧ HtOk l ∧ HtOk r

/-- Size recurrence (spec §3): every stored size field equals
`1 + size left + size right`. -/
def SzOk : N K V → Prop
  | nil => True
  | node _ _ _ s _ _ l r => s = 1 + size l + size r ∧ SzOk l ∧ SzOk r

/-- AVL balance on the stored height fields. -/
def Bal : N K V → Prop
  | nil => True
  | node _ _ _ _ _ _ l r =>
      ((height l : Int) - height r ≤ 1 ∧ (height r : Int) - height l ≤ 1)
        ∧ Bal l ∧ Bal r

/-- AVL balance on the real heights (spec §3,
`|height(left) - height(right)| ≤ 1` at every node). -/
def BalancedR : N K V → Prop
  | nil => True
  | node _ _ _ _ _ _ l r =>
      ((realHeight l : Int) - realHeight r ≤ 1 ∧ (realHeight r : Int) - realHeight l ≤ 1)
        ∧ BalancedR l ∧ BalancedR r

/-- `a < k` for every element `a` of the optional lower bound. -/
def okLo : Option K → K → Prop
  | none, _ => True
  | some a, k => a < k

/-- `k < b` for every element `b` of the optional upper bound. -/
def okHi : Option K → K → Prop
  | none, _ => True
  | some b, k => k < b

/-- BST ordering within optional strict bounds. -/
def Bnd : Option K → Option K → N K V → Prop
  | _, _, nil => True
  | lo, hi, node k _ _ _ _ _ l r =>
      okLo lo k ∧ okHi hi k ∧ Bnd lo (some k) l ∧ Bnd (some k) hi r

/-- Back-reference consistency (spec §3): the stored parent field of the root
is `expect`, and every child's parent field is the id of the node owning it. -/
def ParentOk : N K V → Option Nat → Prop
  | nil, _ => True
  | node _ _ _ _ i pf l r, expect => pf = expect ∧ ParentOk l (some i) ∧ ParentOk r (some i)

instance instDecHtOk : (t : N K V) → Decidable (HtOk t)
  | nil => isTrue trivial
  | node k v h s i p l r =>
      have dl : Decidable (HtOk l) := instDecHtOk l
      have dr : Decidable (HtOk r) := instDecHtOk r
      decidable_of_iff (h = max (height l) (height r) + 1 ∧ HtOk l ∧ HtOk r)
        (by simp [HtOk])

instance instDecSzOk : (t : N K V) → Decidable (SzOk t)
  | nil => isTrue trivial
  | node k v h s i p l r =>
      have dl : Decidable (SzOk l) := instDecSzOk l
      have dr : Decidable (SzOk r) := instDecSzOk r
      decidable_of_iff (s = 1 + size l + size r ∧ SzOk l ∧ SzOk r)
        (by simp [SzOk])

instance instDecBal : (t : N K V) → Decidable (Bal t)
  | nil => isTrue trivial
  | node k v h s i p l r =>
      have dl : Decidable (Bal l) := instDecBal l
      have dr : Decidable (Bal r) := instDecBal r
      decidable_of_iff
        (((height l : Int) - height r ≤ 1 ∧ (height r : Int) - height l ≤ 1) ∧ Bal l ∧ Bal r)
        (by simp [Bal])

instance instDecBalancedR : (t : N K V) → Decidable (BalancedR t)
  | nil => isTrue trivial
  | node k v h s i p l r =>
      have dl : Decidable (BalancedR l) := instDecBalancedR l
      have dr : Decidable (BalancedR r) := instDecBalancedR r
      decidable_of_iff
        (((realHeight l : Int) - realHeight r ≤ 1
            ∧ (realHeight r : Int) - realHeight l ≤ 1) ∧ BalancedR l ∧ BalancedR r)
        (by simp [BalancedR])

instance instDecOkLo : (lo : Option K) → (k : K) → Decidable (okLo lo k)
  | none, _ => isTrue trivial
  | some a, k => decidable_of_iff (a < k) (by simp [okLo])

instance instDecOkHi : (hi : Option K) → (k : K) → Decidable (okHi hi k)
  | none, _ => isTrue trivial
  | some b, k => decidable_of_iff (k < b) (by simp [okHi])

instance instDecBnd : (lo hi : Option K) → (t : N K V) → Decidable (Bnd lo hi t)
  | _, _, nil => isTrue trivial
  | lo, hi, node k v h s i p l r =>
      have dl : Decidable (Bnd lo (some k) l) := instDecBnd lo (some k) l
      have dr : Decidable (Bnd (some k) hi r) := instDecBnd (some k) hi r
      decidable_of_iff (okLo lo k ∧ okHi hi k ∧ Bnd lo (some k) l ∧ Bnd (some k) hi r)
        (by simp [Bnd])

instance instDecParentOk : (t : N K V) → (e : Option Nat) → Decidable (ParentOk t e)
  | nil, _ => isTrue trivial
  | node k v h s i pf l r, e =>
      have dl : Decidable (ParentOk l (some i)) := instDecParentOk l (some i)
      have dr : Decidable (ParentOk r (some i)) := instDecParentOk r (some i)
      decidable_of_iff (pf = e ∧ ParentOk l (some i) ∧ ParentOk r (some i))
        (by simp [ParentOk])

end N

/-- Well-formedness of a tree: all the data-model invariants of spec §3
(height recurrence, size recurrence, AVL balance, BST ordering, and parent
back-reference consistency with the root's parent absent). -/
def WF {K V : Type} [LinearOrder K] (t : T K V) : Prop :=
  N.HtOk t.root ∧ N.SzOk t.root ∧ N.Bal t.root
    ∧ N.Bnd none none t.root ∧ N.ParentOk t.root none

instance {K V : Type} [LinearOrder K] (t : T K V) : Decidable (WF t) := by
  unfold WF; infer_instance

/-- A mutation of the public API: one `Insert` or one `Delete`. -/
inductive Op (K V : Type) where
  | insert (key : K) (value : V) : Op K V
  | delete (key : K) : Op K V

/-- Apply one operation to a tree (discarding the returned bool, as a caller
that only builds the tree does). -/
def applyOp {K V : Type} [LinearOrder K] (t : T K V) : Op K V → T K V
  | .insert k v => (t.Insert k v).1
  | .delete k => (t.Delete k).1

/-- The tree built from the empty tree by a sequence of operations. -/
def build {K V : Type} [LinearOrder K] (ops : List (Op K V)) : T K V :=
  ops.foldl applyOp T.New

end AvlGo
namespace AvlGo

/-- A direction taken while descending from the root: the access path of a
node is the sequence of left/right child steps that reaches it.  Under
back-reference consistency (`ParentOk`) the Go parent pointer of the node at
path `p ++ [d]` designates the node at path `p`, so walking parent pointers
is walking the access path backwards. -/
inductive Dir where
  | left : Dir
  | right : Dir
deriving DecidableEq

namespace N

variable {K V : Type} [LinearOrder K]

/-- The subtree reached from `t` by following a path of child steps
(`nil` when the path runs off the tree). -/
def nodeAt : N K V → List Dir → N K V
  | t, [] => t
  | nil, _ :: _ => nil
  | node _ _ _ _ _ _ l _, Dir.left :: p => nodeAt l p
  | node _ _ _ _ _ _ _ r, Dir.right :: p => nodeAt r p

/-- The access path the Go `Search` loop walks: left on `key < k`, right on
`key > k`, stop on equality.  `none` when the key is absent. -/
def searchPath (key : K) : N K V → Option (List Dir)
  | nil => none
  | node k _ _ _ _ _ l r =>
      if key < k then (searchPath key l).map (Dir.left :: ·)
      else if k < key then (searchPath key r).map (Dir.right :: ·)
      else some []

/-- The parent-pointer ascent of Go `Successor` on the reversed access path:
while the current node is its parent's right child, move up; when it is a
left child the parent is the successor (its reversed path is returned);
reaching the root means no successor. -/
def upSuccRev : List Dir → Option (List Dir)
  | [] => none
  | Dir.right :: rest => upSuccRev rest
  | Dir.left :: rest => some rest

/-- Go `Successor(n)` for the node of `t` at access path `p`: if the node has
a right child, the minimum of the right subtree; otherwise the first ancestor
reached from below through a left-child edge (found by walking the parent
chain, i.e. the access path backwards — see `upSuccRev`). -/
def successorAt (t : N K V) (p : List Dir) : Option (N K V) :=
  match nodeAt t p with
  | nil => none
  | node _ _ _ _ _ _ _ r =>
      match r with
      | node k' v' h' s' i' p' l' r' => some (minNode (node k' v' h' s' i' p' l' r'))
      | nil => (upSuccRev p.reverse).map (fun q => nodeAt t q.reverse)

/-- `s` occurs as a subtree (a node in the ownership graph) of `t`. -/
def IsSub : N K V → N K V → Prop
  | s, nil => s = nil
  | s, node k v h sz i p l r =>
      s = node k v h sz i p l r ∨ IsSub s l ∨ IsSub s r

instance instDecIsSub [DecidableEq V] : (s t : N K V) → Decidable (IsSub s t)
  | s, nil => decidable_of_iff (s = nil) (by simp [IsSub])
  | s, node k v h sz i p l r =>
      have dl : Decidable (IsSub s l) := instDecIsSub s l
      have dr : Decidable (IsSub s r) := instDecIsSub s r
      decidable_of_iff (s = node k v h sz i p l r ∨ IsSub s l ∨ IsSub s r)
        (by simp [IsSub])

end N

/-- Reference list function: insert `(key, v)` into a key-sorted association
list, replacing the value if the key is present. -/
def insKV {K V : Type} [LinearOrder K] (key : K) (v : V) : List (K × V) → List (K × V)
  | [] => [(key, v)]
  | (a, b) :: t =>
      if key < a then (key, v) :: (a, b) :: t
      else if a < key then (a, b) :: insKV key v t
      else (key, v) :: t

/-- Reference list function: remove the first pair whose key is `key`. -/
def eraseKV {K V : Type} [LinearOrder K] (key : K) : List (K × V) → List (K × V)
  | [] => []
  | (a, b) :: t => if a = key then t else (a, b) :: eraseKV key t

/-- Reference list function: value of the first pair whose key is `key`. -/
def lookupKV {K V : Type} [LinearOrder K] (key : K) : List (K × V) → Option V
  | [] => none
  | (a, b) :: t => if a = key then some b else lookupKV key t

end AvlGo


/-! ## Basic lemmas -/

namespace AvlGo

namespace N

variable {K V : Type} [LinearOrder K]

@[simp] theorem height_nil : height (nil : N K V) = 0 := rfl

@[simp] theorem height_node (k : K) (v : V) (h s i p) (l r : N K V) :
    height (node k v h s i p l r) = h := rfl

@[simp] theorem size_nil : size (nil : N K V) = 0 := rfl

@[simp] theorem size_node (k : K) (v : V) (h s i p) (l r : N K V) :
    size (node k v h s i p l r) = s := rfl

@[simp] theorem entries_nil : entries (nil : N K V) = [] := rfl

@[simp] theorem entries_node (k : K) (v : V) (h s i p) (l r : N K V) :
    entries (node k v h s i p l r) = entries l ++ (k, v) :: entries r := rfl

@[simp] theorem keys_nil : keys (nil : N K V) = [] := rfl

@[simp] theorem keys_node (k : K) (v : V) (h s i p) (l r : N K V) :
    keys (node k v h s i p l r) = keys l ++ k :: keys r := by
  simp [keys]

theorem size_eq_length {t : N K V} (hs : SzOk t) : size t = (entries t).length := by
  induction t with
  | nil => simp
  | node k v hh ss i p l r ihl ihr =>
      rcases hs with ⟨hs, hl, hr⟩
      simp [ihl hl, ihr hr, hs]
      omega

theorem height_eq_realHeight {t : N K V} (hh : HtOk t) : height t = realHeight t := by
  induction t with
  | nil => simp [realHeight]
  | node k v hh' ss i p l r ihl ihr =>
      rcases hh with ⟨hh, hl, hr⟩
      simp [realHeight, ihl hl, ihr hr] at hh ⊢
      omega

theorem balancedR_of_bal {t : N K V} (hh : HtOk t) (hb : Bal t) : BalancedR t := by
  induction t with
  | nil => trivial
  | node k v hh' ss i p l r ihl ihr =>
      rcases hh with ⟨hh, hhl, hhr⟩
      rcases hb with ⟨hb, hbl, hbr⟩
      refine ⟨?_, ihl hhl hbl, ihr hhr hbr⟩
      rw [← height_eq_realHeight hhl, ← height_eq_realHeight hhr]
      exact hb

theorem keys_bounds {lo hi : Option K} {t : N K V} (h : Bnd lo hi t) :
    ∀ a ∈ keys t, okLo lo a ∧ okHi hi a := by
  induction t generalizing lo hi with
  | nil => simp
  | node k v hh ss i p l r ihl ihr =>
      rcases h with ⟨hk1, hk2, hl, hr⟩
      intro a ha
      simp at ha
      rcases ha with ha | rfl | ha
      · rcases ihl hl a ha with ⟨h1, h2⟩
        refine ⟨h1, ?_⟩
        simp [okHi] at h2
        cases hi with
        | none => trivial
        | some b => exact lt_trans h2 hk2
      · exact ⟨hk1, hk2⟩
      · rcases ihr hr a ha with ⟨h1, h2⟩
        refine ⟨?_, h2⟩
        simp [okLo] at h1
        cases lo with
        | none => trivial
        | some b => exact lt_trans hk1 h1

theorem sorted_of_bnd {lo hi : Option K} {t : N K V} (h : Bnd lo hi t) :
    (keys t).Pairwise (· < ·) := by
  induction t generalizing lo hi with
  | nil => simp
  | node k v hh ss i p l r ihl ihr =>
      rcases h with ⟨hk1, hk2, hl, hr⟩
      have bl := keys_bounds hl
      have br := keys_bounds hr
      simp [List.pairwise_append]
      refine ⟨ihl hl, ⟨?_, ihr hr⟩, ?_⟩
      · intro a ha
        exact (br a ha).1
      · intro a ha
        constructor
        · exact (bl a ha).2
        · intro b hb
          exact lt_trans (bl a ha).2 (br b hb).1

theorem bnd_of_sorted {lo hi : Option K} {t : N K V}
    (hs : (keys t).Pairwise (· < ·))
    (hb : ∀ a ∈ keys t, okLo lo a ∧ okHi hi a) : Bnd lo hi t := by
  induction t generalizing lo hi with
  | nil => trivial
  | node k v hh ss i p l r ihl ihr =>
      simp [List.pairwise_append] at hs
      rcases hs with ⟨hsl, ⟨hkr, hsr⟩, hcross⟩
      have hk := hb k (by simp)
      refine ⟨hk.1, hk.2, ihl hsl ?_, ihr hsr ?_⟩
      · intro a ha
        refine ⟨(hb a (by simp [ha])).1, ?_⟩
        simpa [okHi] using (hcross a ha).1
      · intro a ha
        refine ⟨?_, (hb a (by simp [ha])).2⟩
        simpa [okLo] using hkr a ha

/-- Transfer of the BST invariant along an equality of key lists. -/
theorem bnd_of_keys_eq {lo hi : Option K} {t t' : N K V}
    (hk : keys t' = keys t) (h : Bnd lo hi t) : Bnd lo hi t' := by
  refine bnd_of_sorted ?_ ?_
  · rw [hk]; exact sorted_of_bnd h
  · rw [hk]; exact keys_bounds h

end N

end AvlGo

namespace AvlGo

namespace N

variable {K V : Type} [LinearOrder K]

@[simp] theorem height_setParent (t : N K V) (p : Option Nat) :
    height (setParent t p) = height t := by cases t <;> rfl

@[simp] theorem size_setParent (t : N K V) (p : Option Nat) :
    size (setParent t p) = size t := by cases t <;> rfl

@[simp] theorem entries_setParent (t : N K V) (p : Option Nat) :
    entries (setParent t p) = entries t := by cases t <;> rfl

@[simp] theorem keys_setParent (t : N K V) (p : Option Nat) :
    keys (setParent t p) = keys t := by simp [keys]

@[simp] theorem HtOk_setParent (t : N K V) (p : Option Nat) :
    HtOk (setParent t p) ↔ HtOk t := by cases t <;> simp [setParent, HtOk]

@[simp] theorem SzOk_setParent (t : N K V) (p : Option Nat) :
    SzOk (setParent t p) ↔ SzOk t := by cases t <;> simp [setParent, SzOk]

@[simp] theorem Bal_setParent (t : N K V) (p : Option Nat) :
    Bal (setParent t p) ↔ Bal t := by cases t <;> simp [setParent, Bal]

@[simp] theorem Bnd_setParent (lo hi : Option K) (t : N K V) (p : Option Nat) :
    Bnd lo hi (setParent t p) ↔ Bnd lo hi t := by cases t <;> simp [setParent, Bnd]

/-- `rebalance` with the balance factor already in `[-1, 1]`: only the
metadata is refreshed. -/
theorem rebalance_eq_of_bal {k : K} {v : V} {h0 s0 i p} {l r : N K V}
    (h1 : (height l : Int) - height r ≤ 1) (h2 : (height r : Int) - height l ≤ 1) :
    rebalance (node k v h0 s0 i p l r)
      = node k v (max (height l) (height r) + 1) (1 + size l + size r) i p l r := by
  rw [rebalance]
  rw [if_neg (by omega), if_neg (by omega)]

/-- `rebalance` when the left subtree is two higher than the right: the
right-rotation cases.  The stale stored fields `h0 s0` are irrelevant. -/
theorem rebalance_left_spec (k : K) (v : V) (h0 s0 i : Nat) (p : Option Nat)
    {l r : N K V}
    (hHl : HtOk l) (hHr : HtOk r) (hSl : SzOk l) (hSr : SzOk r)
    (hBl : Bal l) (hBr : Bal r) (hlr : height l = height r + 2) :
    entries (rebalance (node k v h0 s0 i p l r)) = entries l ++ (k, v) :: entries r
      ∧ HtOk (rebalance (node k v h0 s0 i p l r))
      ∧ SzOk (rebalance (node k v h0 s0 i p l r))
      ∧ Bal (rebalance (node k v h0 s0 i p l r))
      ∧ (height (rebalance (node k v h0 s0 i p l r)) = height l
          ∨ (balanceFactor l = 0
              ∧ height (rebalance (node k v h0 s0 i p l r)) = height l + 1)) := by
  rw [rebalance]
  rw [if_pos (by omega)]
  cases l with
  | nil =>
      rw [height_nil] at hlr
      exact absurd hlr (by omega)
  | node lk lv lh ls li lp la lb =>
      rcases hHl with ⟨hlh, hHla, hHlb⟩
      rcases hBl with ⟨hbal_l, hBla, hBlb⟩
      rcases hSl with ⟨hls, hSla, hSlb⟩
      simp only [height_node, size_node] at hlr hlh hls
      by_cases hbf : balanceFactor (node lk lv lh ls li lp la lb) < 0
      · rw [if_pos hbf]
        simp only [balanceFactor, height_node] at hbf
        -- left-right case: lb is one higher than la and must be a node
        cases lb with
        | nil =>
            rw [height_nil] at hbf
            exact absurd hbf (by omega)
        | node mk mv mh ms mi mp ma mb =>
            rcases hHlb with ⟨hmh, hHma, hHmb⟩
            rcases hBlb with ⟨hbal_m, hBma, hBmb⟩
            rcases hSlb with ⟨hms, hSma, hSmb⟩
            simp only [height_node, size_node] at hmh hms hbf hbal_l hbal_m hlh hls hlr
            simp only [rotateLeft, rotateRight, updateSize, height_setParent,
              size_setParent, height_node, size_node]
            refine ⟨?_, ?_, ?_, ?_, ?_⟩
            · simp [entries]
            · exact ⟨rfl, ⟨by rw [height_setParent], hHla, (HtOk_setParent ma (some li)).mpr hHma⟩,
                ⟨by rw [height_setParent], (HtOk_setParent mb (some i)).mpr hHmb, hHr⟩⟩
            · exact ⟨rfl, ⟨by rw [size_setParent], hSla, (SzOk_setParent ma (some li)).mpr hSma⟩,
                ⟨by rw [size_setParent], (SzOk_setParent mb (some i)).mpr hSmb, hSr⟩⟩
            · refine ⟨⟨?_, ?_⟩, ⟨⟨?_, ?_⟩, hBla, (Bal_setParent ma (some li)).mpr hBma⟩,
                ⟨⟨?_, ?_⟩, (Bal_setParent mb (some i)).mpr hBmb, hBr⟩⟩ <;>
                simp only [height_node, height_setParent] <;> omega
            · simp only [balanceFactor, height_node, height_setParent]
              omega
      · rw [if_neg hbf]
        simp only [balanceFactor, height_node] at hbf
        simp only [rotateRight, updateSize, height_setParent, size_setParent,
          height_node, size_node]
        refine ⟨?_, ?_, ?_, ?_, ?_⟩
        · simp [entries]
        · exact ⟨rfl, hHla, ⟨by rw [height_setParent], (HtOk_setParent lb (some i)).mpr hHlb, hHr⟩⟩
        · exact ⟨rfl, hSla, ⟨by rw [size_setParent], (SzOk_setParent lb (some i)).mpr hSlb, hSr⟩⟩
        · refine ⟨⟨?_, ?_⟩, hBla, ⟨⟨?_, ?_⟩, (Bal_setParent lb (some i)).mpr hBlb, hBr⟩⟩ <;>
            simp only [height_node, height_setParent] <;> omega
        · simp only [balanceFactor, height_node, height_setParent]
          omega

/-- `rebalance` when the right subtree is two higher than the left: the
left-rotation cases. -/
theorem rebalance_right_spec (k : K) (v : V) (h0 s0 i : Nat) (p : Option Nat)
    {l r : N K V}
    (hHl : HtOk l) (hHr : HtOk r) (hSl : SzOk l) (hSr : SzOk r)
    (hBl : Bal l) (hBr : Bal r) (hlr : height r = height l + 2) :
    entries (rebalance (node k v h0 s0 i p l r)) = entries l ++ (k, v) :: entries r
      ∧ HtOk (rebalance (node k v h0 s0 i p l r))
      ∧ SzOk (rebalance (node k v h0 s0 i p l r))
      ∧ Bal (rebalance (node k v h0 s0 i p l r))
      ∧ (height (rebalance (node k v h0 s0 i p l r)) = height r
          ∨ (balanceFactor r = 0
              ∧ height (rebalance (node k v h0 s0 i p l r)) = height r + 1)) := by
  rw [rebalance]
  rw [if_neg (by omega), if_pos (by omega)]
  cases r with
  | nil =>
      rw [height_nil] at hlr
      exact absurd hlr (by omega)
  | node rk rv rh rs ri rp ra rb =>
      rcases hHr with ⟨hrh, hHra, hHrb⟩
      rcases hBr with ⟨hbal_r, hBra, hBrb⟩
      rcases hSr with ⟨hrs, hSra, hSrb⟩
      simp only [height_node, size_node] at hlr hrh hrs
      by_cases hbf : 0 < balanceFactor (node rk rv rh rs ri rp ra rb)
      · rw [if_pos hbf]
        simp only [balanceFactor, height_node] at hbf
        -- right-left case: ra is one higher than rb and must be a node
        cases ra with
        | nil =>
            rw [height_nil] at hbf
            exact absurd hbf (by omega)
        | node mk mv mh ms mi mp ma mb =>
            rcases hHra with ⟨hmh, hHma, hHmb⟩
            rcases hBra with ⟨hbal_m, hBma, hBmb⟩
            rcases hSra with ⟨hms, hSma, hSmb⟩
            simp only [height_node, size_node] at hmh hms hbf hbal_r hbal_m hrh hrs hlr
            simp only [rotateRight, rotateLeft, updateSize, height_setParent,
              size_setParent, height_node, size_node]
            refine ⟨?_, ?_, ?_, ?_, ?_⟩
            · simp [entries]
            · exact ⟨rfl, ⟨by rw [height_setParent], hHl, (HtOk_setParent ma (some i)).mpr hHma⟩,
                ⟨by rw [height_setParent], (HtOk_setParent mb (some ri)).mpr hHmb, hHrb⟩⟩
            · exact ⟨rfl, ⟨by rw [size_setParent], hSl, (SzOk_setParent ma (some i)).mpr hSma⟩,
                ⟨by rw [size_setParent], (SzOk_setParent mb (some ri)).mpr hSmb, hSrb⟩⟩
            · refine ⟨⟨?_, ?_⟩, ⟨⟨?_, ?_⟩, hBl, (Bal_setParent ma (some i)).mpr hBma⟩,
                ⟨⟨?_, ?_⟩, (Bal_setParent mb (some ri)).mpr hBmb, hBrb⟩⟩ <;>
                simp only [height_node, height_setParent] <;> omega
            · simp only [balanceFactor, height_node, height_setParent]
              omega
      · rw [if_neg hbf]
        simp only [balanceFactor, height_node] at hbf
        simp only [rotateLeft, updateSize, height_setParent, size_setParent,
          height_node, size_node]
        refine ⟨?_, ?_, ?_, ?_, ?_⟩
        · simp [entries]
        · exact ⟨rfl, ⟨by rw [height_setParent], hHl, (HtOk_setParent ra (some i)).mpr hHra⟩, hHrb⟩
        · exact ⟨rfl, ⟨by rw [size_setParent], hSl, (SzOk_setParent ra (some i)).mpr hSra⟩, hSrb⟩
        · refine ⟨⟨?_, ?_⟩, ⟨⟨?_, ?_⟩, hBl, (Bal_setParent ra (some i)).mpr hBra⟩, hBrb⟩ <;>
            simp only [height_node, height_setParent] <;> omega
        · simp only [balanceFactor, height_node, height_setParent]
          omega

end N

end AvlGo

/-! ## List-level lemmas -/

namespace AvlGo

variable {K V : Type} [LinearOrder K]

theorem insKV_append_lt {key : K} {v : V} {a : K} {b : V} (xs ys : List (K × V))
    (h : key < a) :
    insKV key v (xs ++ (a, b) :: ys) = insKV key v xs ++ (a, b) :: ys := by
  induction xs with
  | nil => simp [insKV, h]
  | cons x xs ih =>
      obtain ⟨c, d⟩ := x
      by_cases h1 : key < c
      · simp [insKV, h1]
      · by_cases h2 : c < key
        · simp [insKV, h1, h2, ih]
        · simp [insKV, h1, h2]

theorem insKV_append_gt {key : K} {v : V} {a : K} {b : V} (xs ys : List (K × V))
    (hxs : ∀ x ∈ xs, x.1 < key) (h : a < key) :
    insKV key v (xs ++ (a, b) :: ys) = xs ++ (a, b) :: insKV key v ys := by
  induction xs with
  | nil => simp [insKV, h, asymm h]
  | cons x xs ih =>
      obtain ⟨c, d⟩ := x
      have hc : c < key := hxs (c, d) (by simp)
      simp [insKV, hc, asymm hc]
      exact ih (fun x hx => hxs x (by simp [hx]))

theorem insKV_append_eq {key : K} {v : V} {b : V} (xs ys : List (K × V))
    (hxs : ∀ x ∈ xs, x.1 < key) :
    insKV key v (xs ++ (key, b) :: ys) = xs ++ (key, v) :: ys := by
  induction xs with
  | nil => simp [insKV]
  | cons x xs ih =>
      obtain ⟨c, d⟩ := x
      have hc : c < key := hxs (c, d) (by simp)
      simp [insKV, hc, asymm hc]
      exact ih (fun x hx => hxs x (by simp [hx]))

theorem lookupKV_insKV_self (key : K) (v : V) (es : List (K × V)) :
    lookupKV key (insKV key v es) = some v := by
  induction es with
  | nil => simp [insKV, lookupKV]
  | cons x t ih =>
      obtain ⟨a, b⟩ := x
      by_cases h1 : key < a
      · simp [insKV, h1, lookupKV]
      · by_cases h2 : a < key
        · simp [insKV, h1, h2, lookupKV, ne_of_lt h2, ih]
        · simp [insKV, h1, h2, lookupKV]

theorem lookupKV_append (key : K) (xs ys : List (K × V)) :
    lookupKV key (xs ++ ys)
      = ((lookupKV key xs).rec (lookupKV key ys) (fun v => some v) : Option V) := by
  induction xs with
  | nil => simp [lookupKV]
  | cons x t ih =>
      obtain ⟨a, b⟩ := x
      by_cases h : a = key
      · simp [lookupKV, h]
      · simp [lookupKV, h, ih]

theorem lookupKV_eq_none {key : K} {es : List (K × V)}
    (h : key ∉ es.map Prod.fst) : lookupKV key es = none := by
  induction es with
  | nil => rfl
  | cons x t ih =>
      obtain ⟨a, b⟩ := x
      rw [List.map_cons, List.mem_cons] at h
      push_neg at h
      have hne : ¬ a = key := fun hc => h.1 (by simp [hc])
      rw [lookupKV, if_neg hne]
      exact ih h.2

theorem eraseKV_not_mem {key : K} {es : List (K × V)}
    (h : key ∉ es.map Prod.fst) : eraseKV key es = es := by
  induction es with
  | nil => rfl
  | cons x t ih =>
      obtain ⟨a, b⟩ := x
      rw [List.map_cons, List.mem_cons] at h
      push_neg at h
      have hne : ¬ a = key := fun hc => h.1 (by simp [hc])
      rw [eraseKV, if_neg hne, ih h.2]

theorem eraseKV_sublist (key : K) (es : List (K × V)) :
    (eraseKV key es).Sublist es := by
  induction es with
  | nil => simp [eraseKV]
  | cons x t ih =>
      obtain ⟨a, b⟩ := x
      by_cases h : a = key
      · simp [eraseKV, h]
      · simpa [eraseKV, h] using ih

theorem eraseKV_append_not_mem {key : K} (xs ys : List (K × V))
    (h : key ∉ xs.map Prod.fst) :
    eraseKV key (xs ++ ys) = xs ++ eraseKV key ys := by
  induction xs with
  | nil => simp
  | cons x t ih =>
      obtain ⟨a, b⟩ := x
      rw [List.map_cons, List.mem_cons] at h
      push_neg at h
      have hne : ¬ a = key := fun hc => h.1 (by simp [hc])
      rw [List.cons_append, eraseKV, if_neg hne, ih h.2, List.cons_append]

theorem length_eraseKV (key : K) (es : List (K × V)) :
    (eraseKV key es).length
      = if key ∈ es.map Prod.fst then es.length - 1 else es.length := by
  induction es with
  | nil => simp [eraseKV]
  | cons x t ih =>
      obtain ⟨a, b⟩ := x
      by_cases h : a = key
      · rw [eraseKV, if_pos h, if_pos (by simp [h])]
        simp
      · have hne : ¬ key = a := fun hc => h hc.symm
        rw [eraseKV, if_neg h]
        simp only [List.map_cons, List.mem_cons, List.length_cons, ih, hne, false_or]
        by_cases hmem : key ∈ t.map Prod.fst
        · rw [if_pos hmem, if_pos hmem]
          have hpos : 0 < (t.map (Prod.fst : K × V → K)).length :=
            List.length_pos.mpr (List.ne_nil_of_mem hmem)
          rw [List.length_map] at hpos
          omega
        · rw [if_neg hmem, if_neg hmem]

end AvlGo

namespace AvlGo

variable {K V : Type} [LinearOrder K]

theorem lookupKV_none_iff {key : K} {es : List (K × V)} :
    lookupKV key es = none ↔ key ∉ es.map Prod.fst := by
  constructor
  · intro h hmem
    induction es with
    | nil => simp at hmem
    | cons x t ih =>
        obtain ⟨a, b⟩ := x
        rw [lookupKV] at h
        by_cases ha : a = key
        · rw [if_pos ha] at h; exact Option.noConfusion h
        · rw [if_neg ha] at h
          rw [List.map_cons, List.mem_cons] at hmem
          rcases hmem with rfl | hmem
          · exact ha rfl
          · exact ih h hmem
  · exact lookupKV_eq_none

theorem lookupKV_append_some {key : K} {xs ys : List (K × V)} {v : V}
    (h : lookupKV key xs = some v) : lookupKV key (xs ++ ys) = some v := by
  induction xs with
  | nil => exact Option.noConfusion h
  | cons x t ih =>
      obtain ⟨a, b⟩ := x
      rw [lookupKV] at h
      rw [List.cons_append, lookupKV]
      by_cases ha : a = key
      · rwa [if_pos ha] at h ⊢
      · rw [if_neg ha] at h ⊢; exact ih h

theorem lookupKV_append_none {key : K} {xs ys : List (K × V)}
    (h : lookupKV key xs = none) : lookupKV key (xs ++ ys) = lookupKV key ys := by
  induction xs with
  | nil => rfl
  | cons x t ih =>
      obtain ⟨a, b⟩ := x
      rw [lookupKV] at h
      rw [List.cons_append, lookupKV]
      by_cases ha : a = key
      · rw [if_pos ha] at h; exact Option.noConfusion h
      · rw [if_neg ha] at h ⊢; exact ih h

theorem lookupKV_eraseKV_sorted {key : K} {es : List (K × V)}
    (hs : (es.map Prod.fst).Pairwise (· < ·)) :
    lookupKV key (eraseKV key es) = none := by
  induction es with
  | nil => rfl
  | cons x t ih =>
      obtain ⟨a, b⟩ := x
      rw [List.map_cons, List.pairwise_cons] at hs
      by_cases ha : a = key
      · rw [eraseKV, if_pos ha]
        apply lookupKV_eq_none
        intro hmem
        have := hs.1 key hmem
        rw [ha] at this
        exact lt_irrefl key this
      · rw [eraseKV, if_neg ha, lookupKV, if_neg ha]
        exact ih hs.2

namespace N

/-- `Search` agrees with association-list lookup on the in-order entries. -/
theorem searchNode_entries {t : N K V} {lo hi : Option K} (hB : Bnd lo hi t)
    (key : K) : (searchNode t key).bind rootValue = lookupKV key (entries t) := by
  induction t generalizing lo hi with
  | nil => rfl
  | node k v hh ss i p l r ihl ihr =>
      obtain ⟨hko, hki, hBl, hBr⟩ := hB
      have hkr : ∀ a ∈ keys r, k < a := fun a ha => (keys_bounds hBr a ha).1
      have hkl : ∀ a ∈ keys l, a < k := fun a ha => (keys_bounds hBl a ha).2
      rw [entries_node, searchNode]
      by_cases h1 : key < k
      · rw [if_pos h1, ihl hBl]
        cases hcase : lookupKV key (entries l) with
        | some w => rw [lookupKV_append_some hcase]
        | none =>
            rw [lookupKV_append_none hcase, lookupKV,
              if_neg (fun hc : k = key => absurd (hc ▸ h1) (lt_irrefl k))]
            symm
            apply lookupKV_eq_none
            intro hmem
            exact absurd (lt_trans h1 (hkr key hmem)) (lt_irrefl key)
      · rw [if_neg h1]
        by_cases h2 : k < key
        · rw [if_pos h2]
          have hnone : lookupKV key (entries l) = none := by
            apply lookupKV_eq_none
            intro hmem
            exact absurd (lt_trans (hkl key hmem) h2) (lt_irrefl key)
          rw [lookupKV_append_none hnone, lookupKV, if_neg (ne_of_lt h2), ihr hBr]
        · rw [if_neg h2]
          have hk : k = key := le_antisymm (not_lt.mp h1) (not_lt.mp h2)
          have hnone : lookupKV key (entries l) = none := by
            apply lookupKV_eq_none
            intro hmem
            exact absurd (hk ▸ hkl key hmem) (lt_irrefl key)
          rw [lookupKV_append_none hnone, lookupKV, if_pos hk]
          rfl

/-- A node returned by `Search` carries the searched key. -/
theorem searchNode_key {t : N K V} {key : K} {n : N K V}
    (h : searchNode t key = some n) : rootKey n = some key := by
  induction t with
  | nil => exact Option.noConfusion h
  | node k v hh ss i p l r ihl ihr =>
      rw [searchNode] at h
      by_cases h1 : key < k
      · rw [if_pos h1] at h; exact ihl h
      · rw [if_neg h1] at h
        by_cases h2 : k < key
        · rw [if_pos h2] at h; exact ihr h
        · rw [if_neg h2] at h
          have hk : k = key := le_antisymm (not_lt.mp h1) (not_lt.mp h2)
          cases h
          simp [rootKey, hk]

/-- `Search` finds a key exactly when it occurs in the in-order key list. -/
theorem searchNode_isSome_iff {t : N K V} {lo hi : Option K} (hB : Bnd lo hi t)
    (key : K) : (searchNode t key).isSome = true ↔ key ∈ keys t := by
  induction t generalizing lo hi with
  | nil => simp [searchNode]
  | node k v hh ss i p l r ihl ihr =>
      obtain ⟨hko, hki, hBl, hBr⟩ := hB
      have hkr : ∀ a ∈ keys r, k < a := fun a ha => (keys_bounds hBr a ha).1
      have hkl : ∀ a ∈ keys l, a < k := fun a ha => (keys_bounds hBl a ha).2
      rw [searchNode, keys_node]
      by_cases h1 : key < k
      · rw [if_pos h1, ihl hBl]
        simp only [List.mem_append, List.mem_cons]
        constructor
        · exact fun h => Or.inl h
        · rintro (h | rfl | h)
          · exact h
          · exact absurd h1 (lt_irrefl key)
          · exact absurd (lt_trans h1 (hkr key h)) (lt_irrefl key)
      · rw [if_neg h1]
        by_cases h2 : k < key
        · rw [if_pos h2, ihr hBr]
          simp only [List.mem_append, List.mem_cons]
          constructor
          · exact fun h => Or.inr (Or.inr h)
          · rintro (h | rfl | h)
            · exact absurd (lt_trans (hkl key h) h2) (lt_irrefl key)
            · exact absurd h2 (lt_irrefl key)
            · exact h
        · rw [if_neg h2]
          have hk : k = key := le_antisymm (not_lt.mp h1) (not_lt.mp h2)
          simp [hk]

end N

end AvlGo

namespace AvlGo

namespace N

variable {K V : Type} [LinearOrder K]

/-- Master lemma for `insertRec`: on a well-formed subtree within bounds it
preserves every structural invariant, its entry list is the sorted insertion
of the new pair, its height grows by at most one (and a grown non-leaf result
is tilted), the returned bool signals a fresh key, and the size grows
accordingly. -/
theorem insertRec_spec :
    ∀ (t : N K V) (key : K) (value : V) (par : Option Nat) (fresh : Nat)
      (lo hi : Option K), Bnd lo hi t → HtOk t → SzOk t → Bal t →
      okLo lo key → okHi hi key →
      HtOk (insertRec t key value par fresh).1
      ∧ SzOk (insertRec t key value par fresh).1
      ∧ Bal (insertRec t key value par fresh).1
      ∧ Bnd lo hi (insertRec t key value par fresh).1
      ∧ entries (insertRec t key value par fresh).1 = insKV key value (entries t)
      ∧ height t ≤ height (insertRec t key value par fresh).1
      ∧ height (insertRec t key value par fresh).1 ≤ height t + 1
      ∧ (height (insertRec t key value par fresh).1 = height t + 1 →
          t = nil ∨ balanceFactor (insertRec t key value par fresh).1 ≠ 0)
      ∧ ((insertRec t key value par fresh).2 = true ↔ key ∉ keys t)
      ∧ size (insertRec t key value par fresh).1
          = size t + (if (insertRec t key value par fresh).2 then 1 else 0) := by
  intro t
  induction t with
  | nil =>
      intro key value par fresh lo hi hB hH hS hb hlo hhi
      refine ⟨⟨rfl, trivial, trivial⟩, ⟨rfl, trivial, trivial⟩,
        ⟨by simp [insertRec], trivial, trivial⟩,
        ⟨hlo, hhi, trivial, trivial⟩, rfl, by simp [insertRec],
        by simp [insertRec], fun _ => Or.inl rfl, by simp [insertRec],
        by simp [insertRec]⟩
  | node k v hh ss i p l r ihl ihr =>
      intro key value par fresh lo hi hB hH hS hb hlo hhi
      obtain ⟨hhEq, hHl, hHr⟩ := hH
      obtain ⟨hssEq, hSl, hSr⟩ := hS
      obtain ⟨hbal, hbl, hbr⟩ := hb
      obtain ⟨hko, hki, hBl, hBr⟩ := hB
      have hkr : ∀ a ∈ keys r, k < a := fun a ha => (keys_bounds hBr a ha).1
      have hkl : ∀ a ∈ keys l, a < k := fun a ha => (keys_bounds hBl a ha).2
      by_cases hk1 : key < k
      · obtain ⟨ihH, ihS, ihB, ihBnd, ihE, ihh1, ihh2, ihgrow, ihins, ihsz⟩ :=
          ihl key value (some i) fresh lo (some k) hBl hHl hSl hbl hlo hk1
        have hstep : insertRec (node k v hh ss i p l r) key value par fresh
            = (rebalance (node k v hh ss i p (insertRec l key value (some i) fresh).1 r),
                (insertRec l key value (some i) fresh).2) := by
          rw [insertRec, if_pos hk1]
        rw [hstep]
        dsimp only
        set l' := (insertRec l key value (some i) fresh).1 with hl'def
        set ins := (insertRec l key value (some i) fresh).2 with hinsdef
        have hins_keys : (ins = true ↔ key ∉ keys (node k v hh ss i p l r)) := by
          rw [keys_node, ihins]
          constructor
          · intro hni hmem
            rw [List.mem_append, List.mem_cons] at hmem
            rcases hmem with hmem | rfl | hmem
            · exact hni hmem
            · exact absurd hk1 (lt_irrefl key)
            · exact absurd (lt_trans hk1 (hkr key hmem)) (lt_irrefl key)
          · intro hnot hmem
            exact hnot (by rw [List.mem_append]; exact Or.inl hmem)
        by_cases hcase : (height l' : Int) - height r ≤ 1
        · have h2 : (height r : Int) - height l' ≤ 1 := by
            rcases hbal with ⟨hb1, hb2⟩
            omega
          rw [rebalance_eq_of_bal hcase h2]
          refine ⟨⟨rfl, ihH, hHr⟩, ⟨rfl, ihS, hSr⟩, ⟨⟨hcase, h2⟩, ihB, hbr⟩,
            ⟨hko, hki, ihBnd, hBr⟩, ?_, ?_, ?_, ?_, hins_keys, ?_⟩
          · rw [entries_node, entries_node, insKV_append_lt _ _ hk1, ihE]
          · rw [height_node, height_node]; omega
          · rw [height_node, height_node]; omega
          · intro hg
            rw [height_node, height_node] at hg
            refine Or.inr ?_
            rw [balanceFactor]
            rcases hbal with ⟨hb1, hb2⟩
            omega
          · rw [size_node, size_node]
            cases hi2 : ins
            · rw [hi2] at ihsz; simp at ihsz ⊢; omega
            · rw [hi2] at ihsz; simp at ihsz ⊢; omega
        · rcases hbal with ⟨hb1, hb2⟩
          have hl'eq : height l' = height r + 2 := by omega
          have hbf : balanceFactor l' ≠ 0 := by
            rcases ihgrow (by omega) with hl0 | hbf
            · rw [hl0, height_nil] at ihh2; omega
            · exact hbf
          obtain ⟨rbE, rbH, rbS, rbB, rbht⟩ :=
            rebalance_left_spec k v hh ss i p ihH hHr ihS hSr ihB hbr hl'eq
          have hht : height (rebalance (node k v hh ss i p l' r)) = height l' := by
            rcases rbht with hht | ⟨hbf0, _⟩
            · exact hht
            · exact absurd hbf0 hbf
          refine ⟨rbH, rbS, rbB, ?_, ?_, ?_, ?_, ?_, hins_keys, ?_⟩
          · refine bnd_of_keys_eq (t := node k v hh ss i p l' r) ?_
              ⟨hko, hki, ihBnd, hBr⟩
            rw [keys, rbE, keys_node, keys, List.map_append]
            rfl
          · rw [rbE, entries_node, insKV_append_lt _ _ hk1, ihE]
          · rw [height_node]; omega
          · rw [height_node]; omega
          · intro hg
            rw [height_node] at hg
            exact absurd hg (by omega)
          · have e3 : size (rebalance (node k v hh ss i p l' r))
                = (entries (rebalance (node k v hh ss i p l' r))).length :=
              size_eq_length rbS
            rw [rbE, List.length_append, List.length_cons,
              ← size_eq_length ihS, ← size_eq_length hSr] at e3
            rw [e3, size_node]
            cases hi2 : ins
            · rw [hi2] at ihsz; simp at ihsz ⊢; omega
            · rw [hi2] at ihsz; simp at ihsz ⊢; omega
      · by_cases hk2 : k < key
        · obtain ⟨ihH, ihS, ihB, ihBnd, ihE, ihh1, ihh2, ihgrow, ihins, ihsz⟩ :=
            ihr key value (some i) fresh (some k) hi hBr hHr hSr hbr hk2 hhi
          have hstep : insertRec (node k v hh ss i p l r) key value par fresh
              = (rebalance (node k v hh ss i p l (insertRec r key value (some i) fresh).1),
                  (insertRec r key value (some i) fresh).2) := by
            rw [insertRec, if_neg hk1, if_pos hk2]
          rw [hstep]
          dsimp only
          set r' := (insertRec r key value (some i) fresh).1 with hr'def
          set ins := (insertRec r key value (some i) fresh).2 with hinsdef
          have hins_keys : (ins = true ↔ key ∉ keys (node k v hh ss i p l r)) := by
            rw [keys_node, ihins]
            constructor
            · intro hni hmem
              rw [List.mem_append, List.mem_cons] at hmem
              rcases hmem with hmem | rfl | hmem
              · exact absurd (lt_trans (hkl key hmem) hk2) (lt_irrefl key)
              · exact absurd hk2 (lt_irrefl key)
              · exact hni hmem
            · intro hnot hmem
              exact hnot (by rw [List.mem_append, List.mem_cons]; exact Or.inr (Or.inr hmem))
          have hxlt : ∀ x ∈ entries l, x.1 < key := fun x hx =>
            lt_trans (hkl x.1 (List.mem_map_of_mem Prod.fst hx)) hk2
          have hEgoal : entries l ++ (k, v) :: insKV key value (entries r)
              = insKV key value (entries l ++ (k, v) :: entries r) := by
            rw [insKV_append_gt (entries l) (entries r) hxlt hk2]
          by_cases hcase : (height r' : Int) - height l ≤ 1
          · have h2 : (height l : Int) - height r' ≤ 1 := by
              rcases hbal with ⟨hb1, hb2⟩
              omega
            rw [rebalance_eq_of_bal h2 hcase]
            refine ⟨⟨rfl, hHl, ihH⟩, ⟨rfl, hSl, ihS⟩, ⟨⟨h2, hcase⟩, hbl, ihB⟩,
              ⟨hko, hki, hBl, ihBnd⟩, ?_, ?_, ?_, ?_, hins_keys, ?_⟩
            · rw [entries_node, entries_node, ihE]
              exact hEgoal
            · rw [height_node, height_node]; omega
            · rw [height_node, height_node]; omega
            · intro hg
              rw [height_node, height_node] at hg
              refine Or.inr ?_
              rw [balanceFactor]
              rcases hbal with ⟨hb1, hb2⟩
              omega
            · rw [size_node, size_node]
              cases hi2 : ins
              · rw [hi2] at ihsz; simp at ihsz ⊢; omega
              · rw [hi2] at ihsz; simp at ihsz ⊢; omega
          · rcases hbal with ⟨hb1, hb2⟩
            have hr'eq : height r' = height l + 2 := by omega
            have hbf : balanceFactor r' ≠ 0 := by
              rcases ihgrow (by omega) with hr0 | hbf
              · rw [hr0, height_nil] at ihh2; omega
              · exact hbf
            obtain ⟨rbE, rbH, rbS, rbB, rbht⟩ :=
              rebalance_right_spec k v hh ss i p hHl ihH hSl ihS hbl ihB hr'eq
            have hht : height (rebalance (node k v hh ss i p l r')) = height r' := by
              rcases rbht with hht | ⟨hbf0, _⟩
              · exact hht
              · exact absurd hbf0 hbf
            refine ⟨rbH, rbS, rbB, ?_, ?_, ?_, ?_, ?_, hins_keys, ?_⟩
            · refine bnd_of_keys_eq (t := node k v hh ss i p l r') ?_
                ⟨hko, hki, hBl, ihBnd⟩
              rw [keys, rbE, keys_node, keys, List.map_append]
              rfl
            · rw [rbE, entries_node, ihE]
              exact hEgoal
            · rw [height_node]; omega
            · rw [height_node]; omega
            · intro hg
              rw [height_node] at hg
              exact absurd hg (by omega)
            · have e3 : size (rebalance (node k v hh ss i p l r'))
                  = (entries (rebalance (node k v hh ss i p l r'))).length :=
                size_eq_length rbS
              rw [rbE, List.length_append, List.length_cons,
                ← size_eq_length hSl, ← size_eq_length ihS] at e3
              rw [e3, size_node]
              cases hi2 : ins
              · rw [hi2] at ihsz; simp at ihsz ⊢; omega
              · rw [hi2] at ihsz; simp at ihsz ⊢; omega
        · have hk : k = key := le_antisymm (not_lt.mp hk1) (not_lt.mp hk2)
          have hstep : insertRec (node k v hh ss i p l r) key value par fresh
              = (node k value hh ss i p l r, false) := by
            rw [insertRec, if_neg hk1, if_neg hk2]
          rw [hstep]
          dsimp only
          refine ⟨⟨hhEq, hHl, hHr⟩, ⟨hssEq, hSl, hSr⟩,
            ⟨hbal, hbl, hbr⟩, ⟨hko, hki, hBl, hBr⟩, ?_, ?_, ?_, ?_, ?_, ?_⟩
          · rw [entries_node, entries_node, ← hk,
              insKV_append_eq (entries l) (entries r)
                (fun x hx => hkl x.1 (List.mem_map_of_mem Prod.fst hx))]
          · rw [height_node, height_node]
          · rw [height_node, height_node]; omega
          · intro hg
            rw [height_node, height_node] at hg
            exact absurd hg (by omega)
          · simp only [Bool.false_eq_true, false_iff, not_not]
            rw [keys_node, List.mem_append, List.mem_cons]
            exact Or.inr (Or.inl hk.symm)
          · rw [size_node, size_node]
            simp

end N

end AvlGo

namespace AvlGo

variable {K V : Type} [LinearOrder K]

theorem eraseKV_append_right_not_mem {key : K} (xs ys : List (K × V))
    (h : key ∉ ys.map Prod.fst) :
    eraseKV key (xs ++ ys) = eraseKV key xs ++ ys := by
  induction xs with
  | nil => simp [eraseKV, eraseKV_not_mem h]
  | cons x t ih =>
      obtain ⟨a, b⟩ := x
      rw [List.cons_append, eraseKV, eraseKV]
      by_cases ha : a = key
      · rw [if_pos ha, if_pos ha]
      · rw [if_neg ha, if_neg ha, ih, List.cons_append]

namespace N

theorem entries_ne_nil (k : K) (v : V) (h s i p) (l r : N K V) :
    entries (node k v h s i p l r) ≠ [] := by
  rw [entries_node]
  exact fun hc => List.not_mem_nil (k, v) (hc ▸ (by simp))

/-- The leftmost node holds the first in-order entry. -/
theorem rootEntry_minNode (t : N K V) :
    rootEntry (minNode t) = (entries t).head? := by
  induction t with
  | nil => rfl
  | node k v hh ss i p l r ihl ihr =>
      cases l with
      | nil => rw [minNode]; rfl
      | node lk lv lh ls li lp la lb =>
          obtain ⟨e, es, hE⟩ :=
            List.exists_cons_of_ne_nil (entries_ne_nil lk lv lh ls li lp la lb)
          rw [minNode, entries_node, hE, List.cons_append, List.head?_cons]
          rw [hE, List.head?_cons] at ihl
          exact ihl

theorem minNode_ne_nil {t : N K V} (h : t ≠ nil) : minNode t ≠ nil := by
  intro hc
  have := rootEntry_minNode t
  rw [hc] at this
  cases t with
  | nil => exact h rfl
  | node k v hh ss i p l r =>
      exact entries_ne_nil k v hh ss i p l r (List.head?_eq_none_iff.mp this.symm)

theorem bnd_drop_lo {k : K} {lo' hi : Option K} {t : N K V}
    (h1 : okLo lo' k) (h : Bnd (some k) hi t) : Bnd lo' hi t := by
  induction t generalizing hi with
  | nil => trivial
  | node k2 v hh ss i p l r ihl ihr =>
      obtain ⟨hko, hki, hBl, hBr⟩ := h
      have hk2 : okLo lo' k2 := by
        cases lo' with
        | none => trivial
        | some a => exact lt_trans h1 hko
      exact ⟨hk2, hki, ihl hBl, hBr⟩

theorem bnd_drop_hi {k : K} {lo hi' : Option K} {t : N K V}
    (h1 : okHi hi' k) (h : Bnd lo (some k) t) : Bnd lo hi' t := by
  induction t generalizing lo with
  | nil => trivial
  | node k2 v hh ss i p l r ihl ihr =>
      obtain ⟨hko, hki, hBl, hBr⟩ := h
      have hk2 : okHi hi' k2 := by
        cases hi' with
        | none => trivial
        | some a => exact lt_trans hki h1
      exact ⟨hko, hk2, hBl, ihr hBr⟩

end N

end AvlGo

namespace AvlGo

namespace N

variable {K V : Type} [LinearOrder K]

/-- Master lemma for `deleteRec`: on a well-formed subtree within bounds it
preserves every structural invariant, its entry list is the erasure of the
key, its height shrinks by at most one, the returned bool signals presence,
and the size shrinks accordingly. -/
theorem deleteRec_spec :
    ∀ (t : N K V) (key : K) (lo hi : Option K), Bnd lo hi t → HtOk t → SzOk t → Bal t →
      HtOk (deleteRec t key).1
      ∧ SzOk (deleteRec t key).1
      ∧ Bal (deleteRec t key).1
      ∧ Bnd lo hi (deleteRec t key).1
      ∧ entries (deleteRec t key).1 = eraseKV key (entries t)
      ∧ height (deleteRec t key).1 ≤ height t
      ∧ height t ≤ height (deleteRec t key).1 + 1
      ∧ ((deleteRec t key).2 = true ↔ key ∈ keys t)
      ∧ size t = size (deleteRec t key).1 + (if (deleteRec t key).2 then 1 else 0) := by
  intro t
  induction t with
  | nil =>
      intro key lo hi hB hH hS hb
      exact ⟨trivial, trivial, trivial, trivial, rfl, le_refl _, by simp [deleteRec],
        by simp [deleteRec], by simp [deleteRec]⟩
  | node k v hh ss i p l r ihl ihr =>
      intro key lo hi hB hH hS hb
      obtain ⟨hhEq, hHl, hHr⟩ := hH
      obtain ⟨hssEq, hSl, hSr⟩ := hS
      obtain ⟨⟨hb1, hb2⟩, hbl, hbr⟩ := hb
      obtain ⟨hko, hki, hBl, hBr⟩ := hB
      have hkr : ∀ a ∈ keys r, k < a := fun a ha => (keys_bounds hBr a ha).1
      have hkl : ∀ a ∈ keys l, a < k := fun a ha => (keys_bounds hBl a ha).2
      by_cases hk1 : key < k
      · obtain ⟨ihH, ihS, ihB, ihBnd, ihE, ihh1, ihh2, ihdel, ihsz⟩ :=
          ihl key lo (some k) hBl hHl hSl hbl
        have hstep : deleteRec (node k v hh ss i p l r) key
            = (rebalance (node k v hh ss i p (deleteRec l key).1 r),
                (deleteRec l key).2) := by
          rw [deleteRec.eq_def]
          dsimp only
          rw [if_pos hk1]
        rw [hstep]
        dsimp only
        set l' := (deleteRec l key).1 with hl'def
        set del := (deleteRec l key).2 with hdeldef
        have hcons_not : key ∉ ((k, v) :: entries r).map Prod.fst := by
          rw [List.map_cons, List.mem_cons]
          rintro (h | hmem)
          · exact absurd (h ▸ hk1) (lt_irrefl key)
          · exact absurd (lt_trans hk1 (hkr key hmem)) (lt_irrefl key)
        have hEr : eraseKV key (entries l ++ (k, v) :: entries r)
            = eraseKV key (entries l) ++ (k, v) :: entries r :=
          eraseKV_append_right_not_mem _ _ hcons_not
        have hdel_keys : (del = true ↔ key ∈ keys (node k v hh ss i p l r)) := by
          rw [keys_node, ihdel]
          constructor
          · intro hm
            rw [List.mem_append]
            exact Or.inl hm
          · intro hm
            rw [List.mem_append, List.mem_cons] at hm
            rcases hm with hm | h | hm
            · exact hm
            · exact absurd (h ▸ hk1) (lt_irrefl key)
            · exact absurd (lt_trans hk1 (hkr key hm)) (lt_irrefl key)
        by_cases hcase : (height r : Int) - height l' ≤ 1
        · have h1 : (height l' : Int) - height r ≤ 1 := by omega
          rw [rebalance_eq_of_bal h1 hcase]
          refine ⟨⟨rfl, ihH, hHr⟩, ⟨rfl, ihS, hSr⟩, ⟨⟨h1, hcase⟩, ihB, hbr⟩,
            ⟨hko, hki, ihBnd, hBr⟩, ?_, ?_, ?_, hdel_keys, ?_⟩
          · rw [entries_node, entries_node, hEr, ihE]
          · rw [height_node, height_node]; omega
          · rw [height_node, height_node]; omega
          · rw [size_node, size_node]
            cases hi2 : del
            · rw [hi2] at ihsz; simp at ihsz ⊢; omega
            · rw [hi2] at ihsz; simp at ihsz ⊢; omega
        · have hreq : height r = height l' + 2 := by omega
          obtain ⟨rbE, rbH, rbS, rbB, rbht⟩ :=
            rebalance_right_spec k v hh ss i p ihH hHr ihS hSr ihB hbr hreq
          have hres : height (rebalance (node k v hh ss i p l' r)) = height r
              ∨ height (rebalance (node k v hh ss i p l' r)) = height r + 1 := by
            rcases rbht with h1 | ⟨_, h2⟩
            · exact Or.inl h1
            · exact Or.inr h2
          refine ⟨rbH, rbS, rbB, ?_, ?_, ?_, ?_, hdel_keys, ?_⟩
          · refine bnd_of_keys_eq (t := node k v hh ss i p l' r) ?_
              ⟨hko, hki, ihBnd, hBr⟩
            rw [keys, rbE, keys_node, keys, List.map_append]
            rfl
          · rw [rbE, entries_node, hEr, ihE]
          · rw [height_node]; omega
          · rw [height_node]; omega
          · have e3 : size (rebalance (node k v hh ss i p l' r))
                = (entries (rebalance (node k v hh ss i p l' r))).length :=
              size_eq_length rbS
            rw [rbE, List.length_append, List.length_cons,
              ← size_eq_length ihS, ← size_eq_length hSr] at e3
            rw [e3, size_node]
            cases hi2 : del
            · rw [hi2] at ihsz; simp at ihsz ⊢; omega
            · rw [hi2] at ihsz; simp at ihsz ⊢; omega
      · by_cases hk2 : k < key
        · obtain ⟨ihH, ihS, ihB, ihBnd, ihE, ihh1, ihh2, ihdel, ihsz⟩ :=
            ihr key (some k) hi hBr hHr hSr hbr
          have hstep : deleteRec (node k v hh ss i p l r) key
              = (rebalance (node k v hh ss i p l (deleteRec r key).1),
                  (deleteRec r key).2) := by
            rw [deleteRec.eq_def]
            dsimp only
            rw [if_neg hk1, if_pos hk2]
          rw [hstep]
          dsimp only
          set r' := (deleteRec r key).1 with hr'def
          set del := (deleteRec r key).2 with hdeldef
          have hl_not : key ∉ (entries l).map Prod.fst := by
            intro hmem
            exact absurd (lt_trans (hkl key hmem) hk2) (lt_irrefl key)
          have hEr : eraseKV key (entries l ++ (k, v) :: entries r)
              = entries l ++ (k, v) :: eraseKV key (entries r) := by
            rw [eraseKV_append_not_mem _ _ hl_not, eraseKV,
              if_neg (ne_of_lt hk2)]
          have hdel_keys : (del = true ↔ key ∈ keys (node k v hh ss i p l r)) := by
            rw [keys_node, ihdel]
            constructor
            · intro hm
              rw [List.mem_append, List.mem_cons]
              exact Or.inr (Or.inr hm)
            · intro hm
              rw [List.mem_append, List.mem_cons] at hm
              rcases hm with hm | h | hm
              · exact absurd (lt_trans (hkl key hm) hk2) (lt_irrefl key)
              · exact absurd (h ▸ hk2) (lt_irrefl k)
              · exact hm
          by_cases hcase : (height l : Int) - height r' ≤ 1
          · have h2 : (height r' : Int) - height l ≤ 1 := by omega
            rw [rebalance_eq_of_bal hcase h2]
            refine ⟨⟨rfl, hHl, ihH⟩, ⟨rfl, hSl, ihS⟩, ⟨⟨hcase, h2⟩, hbl, ihB⟩,
              ⟨hko, hki, hBl, ihBnd⟩, ?_, ?_, ?_, hdel_keys, ?_⟩
            · rw [entries_node, entries_node, hEr, ihE]
            · rw [height_node, height_node]; omega
            · rw [height_node, height_node]; omega
            · rw [size_node, size_node]
              cases hi2 : del
              · rw [hi2] at ihsz; simp at ihsz ⊢; omega
              · rw [hi2] at ihsz; simp at ihsz ⊢; omega
          · have hleq : height l = height r' + 2 := by omega
            obtain ⟨rbE, rbH, rbS, rbB, rbht⟩ :=
              rebalance_left_spec k v hh ss i p hHl ihH hSl ihS hbl ihB hleq
            have hres : height (rebalance (node k v hh ss i p l r')) = height l
                ∨ height (rebalance (node k v hh ss i p l r')) = height l + 1 := by
              rcases rbht with h1 | ⟨_, h2⟩
              · exact Or.inl h1
              · exact Or.inr h2
            refine ⟨rbH, rbS, rbB, ?_, ?_, ?_, ?_, hdel_keys, ?_⟩
            · refine bnd_of_keys_eq (t := node k v hh ss i p l r') ?_
                ⟨hko, hki, hBl, ihBnd⟩
              rw [keys, rbE, keys_node, keys, List.map_append]
              rfl
            · rw [rbE, entries_node, hEr, ihE]
            · rw [height_node]; omega
            · rw [height_node]; omega
            · have e3 : size (rebalance (node k v hh ss i p l r'))
                  = (entries (rebalance (node k v hh ss i p l r'))).length :=
                size_eq_length rbS
              rw [rbE, List.length_append, List.length_cons,
                ← size_eq_length hSl, ← size_eq_length ihS] at e3
              rw [e3, size_node]
              cases hi2 : del
              · rw [hi2] at ihsz; simp at ihsz ⊢; omega
              · rw [hi2] at ihsz; simp at ihsz ⊢; omega
        · have hk : k = key := le_antisymm (not_lt.mp hk1) (not_lt.mp hk2)
          subst hk
          cases l with
          | nil =>
              have hstep : deleteRec (node k v hh ss i p nil r) k
                  = (setParent r p, true) := by
                rw [deleteRec, if_neg (lt_irrefl k), if_neg (lt_irrefl k)]
              rw [hstep]
              dsimp only
              simp only [size_nil, height_nil, size_node, height_node]
                at hssEq hhEq hb1 hb2
              refine ⟨(HtOk_setParent r p).mpr hHr, (SzOk_setParent r p).mpr hSr,
                (Bal_setParent r p).mpr hbr,
                (Bnd_setParent lo hi r p).mpr (bnd_drop_lo hko hBr), ?_, ?_, ?_, ?_, ?_⟩
              · rw [entries_setParent, entries_node, entries_nil, List.nil_append,
                  eraseKV, if_pos rfl]
              · rw [height_setParent, height_node]; omega
              · rw [height_setParent, height_node]; omega
              · simp [keys_node]
              · rw [size_setParent, size_node]
                simp
                omega
          | node lk lv lh ls li lp la lb =>
              have hl_not : k ∉ (entries (node lk lv lh ls li lp la lb)).map Prod.fst :=
                fun hmem => absurd (hkl k hmem) (lt_irrefl k)
              cases r with
              | nil =>
                  have hstep : deleteRec (node k v hh ss i p (node lk lv lh ls li lp la lb) nil) k
                      = (setParent (node lk lv lh ls li lp la lb) p, true) := by
                    rw [deleteRec, if_neg (lt_irrefl k), if_neg (lt_irrefl k)]
                  rw [hstep]
                  dsimp only
                  simp only [size_nil, height_nil, size_node, height_node]
                    at hssEq hhEq hb1 hb2
                  refine ⟨(HtOk_setParent _ p).mpr hHl, (SzOk_setParent _ p).mpr hSl,
                    (Bal_setParent _ p).mpr hbl,
                    (Bnd_setParent lo hi _ p).mpr (bnd_drop_hi hki hBl), ?_, ?_, ?_, ?_, ?_⟩
                  · rw [entries_setParent]
                    conv_rhs => rw [entries_node]
                    rw [entries_nil, eraseKV_append_not_mem _ _ hl_not,
                      eraseKV, if_pos rfl, List.append_nil]
                  · simp only [height_setParent, height_node]; omega
                  · simp only [height_setParent, height_node]; omega
                  · simp [keys_node]
                  · simp only [size_setParent, size_node]
                    simp
                    omega
              | node rk rv rh rs ri rp ra rb =>
                  obtain ⟨e, es, hE⟩ :=
                    List.exists_cons_of_ne_nil (entries_ne_nil rk rv rh rs ri rp ra rb)
                  have hmin := rootEntry_minNode (node rk rv rh rs ri rp ra rb)
                  set L := node lk lv lh ls li lp la lb with hLdef
                  set R := node rk rv rh rs ri rp ra rb with hRdef
                  clear_value L R
                  cases hmn : minNode R with
                  | nil =>
                      exact absurd hmn (minNode_ne_nil (by rw [hRdef]; exact fun h => N.noConfusion h))
                  | node sk sv s3 s4 s5 s6 s7 s8 =>
                      rw [hmn, hE, List.head?_cons] at hmin
                      have hesk : e = (sk, sv) := (Option.some.inj hmin).symm
                      subst hesk
                      have hskmem : sk ∈ keys R := by
                        rw [keys, hE, List.map_cons]
                        exact List.mem_cons_self _ _
                      have hksk : k < sk := hkr sk hskmem
                      have hskhi : okHi hi sk := (keys_bounds hBr sk hskmem).2
                      have hlosk : okLo lo sk := by
                        cases lo with
                        | none => trivial
                        | some a => exact lt_trans hko hksk
                      obtain ⟨ihH, ihS, ihB, ihBnd, ihE, ihh1, ihh2, ihdel, ihsz⟩ :=
                        ihr sk (some k) hi hBr hHr hSr hbr
                      have hstep : deleteRec (node k v hh ss i p L R) k
                          = (rebalance (node sk sv hh ss i p L (deleteRec R sk).1),
                              true) := by
                        rw [hLdef, hRdef]
                        rw [deleteRec, if_neg (lt_irrefl k), if_neg (lt_irrefl k)]
                        dsimp only
                        rw [← hRdef, hmn]
                      rw [hstep]
                      dsimp only
                      set R' := (deleteRec R sk).1 with hR'def
                      clear_value R'
                      have hdel2 : (deleteRec R sk).2 = true := ihdel.mpr hskmem
                      rw [hdel2] at ihsz
                      simp at ihsz
                      have hER' : entries R' = es := by
                        rw [ihE, hE, eraseKV, if_pos rfl]
                      have hkeysR' : keys R' = es.map Prod.fst := by
                        rw [keys, hER']
                      have hBndR' : Bnd (some sk) hi R' := by
                        refine bnd_of_sorted (sorted_of_bnd ihBnd) ?_
                        intro a ha
                        refine ⟨?_, (keys_bounds ihBnd a ha).2⟩
                        have hsr := sorted_of_bnd hBr
                        rw [keys, hE, List.map_cons, List.pairwise_cons] at hsr
                        rw [hkeysR'] at ha
                        exact hsr.1 a ha
                      have hBndL : Bnd lo (some sk) L := bnd_drop_hi hksk hBl
                      have hEgoal : eraseKV k (entries L ++ (k, v) :: entries R)
                          = entries L ++ (sk, sv) :: es := by
                        rw [eraseKV_append_not_mem _ _ hl_not, eraseKV, if_pos rfl, hE]
                      by_cases hcase : (height L : Int) - height R' ≤ 1
                      · have h2 : (height R' : Int) - height L ≤ 1 := by omega
                        rw [rebalance_eq_of_bal hcase h2]
                        refine ⟨⟨rfl, hHl, ihH⟩, ⟨rfl, hSl, ihS⟩, ⟨⟨hcase, h2⟩, hbl, ihB⟩,
                          ⟨hlosk, hskhi, hBndL, hBndR'⟩, ?_, ?_, ?_, by simp [keys_node], ?_⟩
                        · conv_lhs => rw [entries_node]
                          rw [hER']
                          conv_rhs => rw [entries_node]
                          rw [hEgoal]
                        · rw [height_node, height_node]; omega
                        · rw [height_node, height_node]; omega
                        · rw [size_node, size_node]
                          simp
                          omega
                      · have hleq : height L = height R' + 2 := by omega
                        obtain ⟨rbE, rbH, rbS, rbB, rbht⟩ :=
                          rebalance_left_spec sk sv hh ss i p hHl ihH hSl ihS hbl ihB hleq
                        have hres : height (rebalance (node sk sv hh ss i p L R'))
                              = height L
                            ∨ height (rebalance (node sk sv hh ss i p L R'))
                              = height L + 1 := by
                          rcases rbht with h1 | ⟨_, h2⟩
                          · exact Or.inl h1
                          · exact Or.inr h2
                        refine ⟨rbH, rbS, rbB, ?_, ?_, ?_, ?_, by simp [keys_node], ?_⟩
                        · refine bnd_of_keys_eq
                            (t := node sk sv hh ss i p L R') ?_
                            ⟨hlosk, hskhi, hBndL, hBndR'⟩
                          rw [keys, rbE, keys_node, keys, List.map_append]
                          rfl
                        · rw [rbE, hER']
                          conv_rhs => rw [entries_node]
                          rw [hEgoal]
                        · rw [height_node]; omega
                        · rw [height_node]; omega
                        · have e3 : size (rebalance (node sk sv hh ss i p L R'))
                              = (entries (rebalance (node sk sv hh ss i p L R'))).length :=
                            size_eq_length rbS
                          rw [rbE, List.length_append, List.length_cons,
                            ← size_eq_length hSl, ← size_eq_length ihS] at e3
                          rw [e3, size_node]
                          simp
                          omega

end N

end AvlGo

namespace AvlGo

namespace N

variable {K V : Type} [LinearOrder K]

theorem ParentOk_setParent {t : N K V} {e q : Option Nat} (h : ParentOk t e) :
    ParentOk (setParent t q) q := by
  cases t with
  | nil => trivial
  | node k v hh ss i pf l r =>
      obtain ⟨_, hl, hr⟩ := h
      exact ⟨rfl, hl, hr⟩

theorem ParentOk_rotateLeft {t : N K V} {e : Option Nat} (h : ParentOk t e) :
    ParentOk (rotateLeft t) e := by
  cases t with
  | nil => trivial
  | node zk zv zh zs zi zp zl zr =>
      obtain ⟨hpe, hl, hr⟩ := h
      cases zr with
      | nil => exact ⟨hpe, hl, trivial⟩
      | node yk yv yh ys yi yp yl yr =>
          obtain ⟨_, hyl, hyr⟩ := hr
          exact ⟨hpe, ⟨rfl, hl, ParentOk_setParent hyl⟩, hyr⟩

theorem ParentOk_rotateRight {t : N K V} {e : Option Nat} (h : ParentOk t e) :
    ParentOk (rotateRight t) e := by
  cases t with
  | nil => trivial
  | node zk zv zh zs zi zp zl zr =>
      obtain ⟨hpe, hl, hr⟩ := h
      cases zl with
      | nil => exact ⟨hpe, trivial, hr⟩
      | node yk yv yh ys yi yp yl yr =>
          obtain ⟨_, hyl, hyr⟩ := hl
          exact ⟨hpe, hyl, ⟨rfl, ParentOk_setParent hyr, hr⟩⟩

theorem ParentOk_rebalance {t : N K V} {e : Option Nat} (h : ParentOk t e) :
    ParentOk (rebalance t) e := by
  cases t with
  | nil => trivial
  | node k v h0 s0 i p l r =>
      obtain ⟨hpe, hl, hr⟩ := h
      rw [rebalance]
      split
      · split
        · exact ParentOk_rotateRight ⟨hpe, ParentOk_rotateLeft hl, hr⟩
        · exact ParentOk_rotateRight ⟨hpe, hl, hr⟩
      · split
        · split
          · exact ParentOk_rotateLeft ⟨hpe, hl, ParentOk_rotateRight hr⟩
          · exact ParentOk_rotateLeft ⟨hpe, hl, hr⟩
        · exact ⟨hpe, hl, hr⟩

theorem ParentOk_insertRec :
    ∀ (t : N K V) (key : K) (value : V) (par : Option Nat) (fresh : Nat),
      ParentOk t par → ParentOk (insertRec t key value par fresh).1 par := by
  intro t
  induction t with
  | nil =>
      intro key value par fresh _
      exact ⟨rfl, trivial, trivial⟩
  | node k v hh ss i p l r ihl ihr =>
      intro key value par fresh h
      obtain ⟨hpe, hl, hr⟩ := h
      rw [insertRec]
      by_cases h1 : key < k
      · rw [if_pos h1]
        have hx : ParentOk (node k v hh ss i p
            (insertRec l key value (some i) fresh).1 r) par :=
          ⟨hpe, ihl key value (some i) fresh hl, hr⟩
        exact ParentOk_rebalance hx
      · rw [if_neg h1]
        by_cases h2 : k < key
        · rw [if_pos h2]
          have hx : ParentOk (node k v hh ss i p l
              (insertRec r key value (some i) fresh).1) par :=
            ⟨hpe, hl, ihr key value (some i) fresh hr⟩
          exact ParentOk_rebalance hx
        · rw [if_neg h2]
          exact ⟨hpe, hl, hr⟩

theorem ParentOk_deleteRec :
    ∀ (t : N K V) (key : K) (e : Option Nat),
      ParentOk t e → ParentOk (deleteRec t key).1 e := by
  intro t
  induction t with
  | nil =>
      intro key e _
      trivial
  | node k v hh ss i p l r ihl ihr =>
      intro key e h
      obtain ⟨hpe, hl, hr⟩ := h
      rw [deleteRec.eq_def]
      dsimp only
      by_cases h1 : key < k
      · rw [if_pos h1]
        have hx : ParentOk (node k v hh ss i p (deleteRec l key).1 r) e :=
          ⟨hpe, ihl key (some i) hl, hr⟩
        exact ParentOk_rebalance hx
      · rw [if_neg h1]
        by_cases h2 : k < key
        · rw [if_pos h2]
          have hx : ParentOk (node k v hh ss i p l (deleteRec r key).1) e :=
            ⟨hpe, hl, ihr key (some i) hr⟩
          exact ParentOk_rebalance hx
        · rw [if_neg h2]
          cases l with
          | nil =>
              rw [← hpe]
              exact ParentOk_setParent hr
          | node lk lv lh ls li lp la lb =>
              cases r with
              | nil =>
                  rw [← hpe]
                  exact ParentOk_setParent hl
              | node rk rv rh rs ri rp ra rb =>
                  cases hmn : minNode (node rk rv rh rs ri rp ra rb) with
                  | nil =>
                      dsimp only
                      rw [hmn]
                      trivial
                  | node sk sv s3 s4 s5 s6 s7 s8 =>
                      dsimp only
                      rw [hmn]
                      have hx : ParentOk (node sk sv hh ss i p
                          (node lk lv lh ls li lp la lb)
                          (deleteRec (node rk rv rh rs ri rp ra rb) sk).1) e :=
                        ⟨hpe, hl, ihr sk (some i) hr⟩
                      exact ParentOk_rebalance hx

end N

end AvlGo

/-! ## Tree-level well-formedness preservation -/

namespace AvlGo

variable {K V : Type} [LinearOrder K]

theorem WF_New : WF (T.New : T K V) :=
  ⟨trivial, trivial, trivial, trivial, trivial⟩

theorem WF_Insert {t : T K V} (h : WF t) (key : K) (value : V) :
    WF (t.Insert key value).1 := by
  obtain ⟨hH, hS, hb, hB, hP⟩ := h
  obtain ⟨ihH, ihS, ihB, ihBnd, _, _, _, _, _, _⟩ :=
    N.insertRec_spec t.root key value none t.nextId none none hB hH hS hb
      trivial trivial
  exact ⟨ihH, ihS, ihB, ihBnd,
    N.ParentOk_insertRec t.root key value none t.nextId hP⟩

theorem WF_Delete {t : T K V} (h : WF t) (key : K) :
    WF (t.Delete key).1 := by
  obtain ⟨hH, hS, hb, hB, hP⟩ := h
  obtain ⟨ihH, ihS, ihB, ihBnd, _, _, _, _, _⟩ :=
    N.deleteRec_spec t.root key none none hB hH hS hb
  refine ⟨?_, ?_, ?_, ?_, ?_⟩
  · exact (N.HtOk_setParent _ none).mpr ihH
  · exact (N.SzOk_setParent _ none).mpr ihS
  · exact (N.Bal_setParent _ none).mpr ihB
  · exact (N.Bnd_setParent none none _ none).mpr ihBnd
  · exact N.ParentOk_setParent (N.ParentOk_deleteRec t.root key none hP)

theorem WF_applyOp {t : T K V} (h : WF t) (op : Op K V) : WF (applyOp t op) := by
  cases op with
  | insert k v => exact WF_Insert h k v
  | delete k => exact WF_Delete h k

theorem WF_foldl (ops : List (Op K V)) :
    ∀ (t : T K V), WF t → WF (ops.foldl applyOp t) := by
  induction ops with
  | nil => exact fun t h => h
  | cons op ops ih => exact fun t h => ih (applyOp t op) (WF_applyOp h op)

/-- Every tree built from the empty tree by Insert/Delete operations is
well-formed. -/
theorem wf_build (ops : List (Op K V)) : WF (build ops) :=
  WF_foldl ops T.New WF_New

end AvlGo

namespace AvlGo

namespace N

variable {K V : Type} [LinearOrder K]

theorem setParent_eq_of_parentOk {t : N K V} {e : Option Nat} (h : ParentOk t e) :
    setParent t e = t := by
  cases t with
  | nil => rfl
  | node k v hh ss i pf l r =>
      obtain ⟨hpe, _, _⟩ := h
      rw [setParent, hpe]

/-- Deleting an absent key leaves the subtree unchanged: the descent finds
nothing and every `rebalance` on the unwind recomputes the same metadata. -/
theorem deleteRec_not_mem :
    ∀ (t : N K V) (key : K) (lo hi : Option K), Bnd lo hi t → HtOk t → SzOk t →
      Bal t → key ∉ keys t → deleteRec t key = (t, false) := by
  intro t
  induction t with
  | nil => intro key lo hi _ _ _ _ _; rfl
  | node k v hh ss i p l r ihl ihr =>
      intro key lo hi hB hH hS hb hmem
      obtain ⟨hhEq, hHl, hHr⟩ := hH
      obtain ⟨hssEq, hSl, hSr⟩ := hS
      obtain ⟨⟨hb1, hb2⟩, hbl, hbr⟩ := hb
      obtain ⟨hko, hki, hBl, hBr⟩ := hB
      have hne : ¬ key = k := fun hc => hmem (by rw [keys_node, hc]; simp)
      have hml : key ∉ keys l := fun hc => hmem (by rw [keys_node]; simp [hc])
      have hmr : key ∉ keys r := fun hc => hmem (by rw [keys_node]; simp [hc])
      by_cases h1 : key < k
      · have hstep : deleteRec (node k v hh ss i p l r) key
            = (rebalance (node k v hh ss i p (deleteRec l key).1 r),
                (deleteRec l key).2) := by
          rw [deleteRec.eq_def]
          dsimp only
          rw [if_pos h1]
        rw [hstep, ihl key lo (some k) hBl hHl hSl hbl hml]
        dsimp only
        rw [rebalance_eq_of_bal hb1 hb2, ← hhEq, ← hssEq]
      · by_cases h2 : k < key
        · have hstep : deleteRec (node k v hh ss i p l r) key
              = (rebalance (node k v hh ss i p l (deleteRec r key).1),
                  (deleteRec r key).2) := by
            rw [deleteRec.eq_def]
            dsimp only
            rw [if_neg h1, if_pos h2]
          rw [hstep, ihr key (some k) hi hBr hHr hSr hbr hmr]
          dsimp only
          rw [rebalance_eq_of_bal hb1 hb2, ← hhEq, ← hssEq]
        · exact absurd (le_antisymm (not_lt.mp h1) (not_lt.mp h2)).symm hne

end N

variable {K V : Type} [LinearOrder K]

theorem mem_keys_insKV (key : K) (v : V) (es : List (K × V)) :
    key ∈ (insKV key v es).map Prod.fst := by
  induction es with
  | nil => simp [insKV]
  | cons x t ih =>
      obtain ⟨a, b⟩ := x
      by_cases h1 : key < a
      · simp [insKV, h1]
      · by_cases h2 : a < key
        · simp [insKV, h1, h2, ih]
        · simp [insKV, h1, h2]

end AvlGo

namespace AvlGo

namespace N

variable {K V : Type} [LinearOrder K]

theorem size_eq_keys_length {t : N K V} (hs : SzOk t) : size t = (keys t).length := by
  rw [keys, List.length_map]
  exact size_eq_length hs

/-- The `Rank` loop accumulates the number of keys strictly below `key`. -/
theorem rankLoop_spec :
    ∀ (t : N K V) (key : K) (acc : Nat) (lo hi : Option K), Bnd lo hi t → SzOk t →
      rankLoop key t acc = acc + (keys t).countP (fun a => decide (a < key)) := by
  intro t
  induction t with
  | nil => intro key acc lo hi _ _; simp [rankLoop]
  | node k v hh ss i p l r ihl ihr =>
      intro key acc lo hi hB hS
      obtain ⟨hssEq, hSl, hSr⟩ := hS
      obtain ⟨hko, hki, hBl, hBr⟩ := hB
      have hkr : ∀ a ∈ keys r, k < a := fun a ha => (keys_bounds hBr a ha).1
      have hkl : ∀ a ∈ keys l, a < k := fun a ha => (keys_bounds hBl a ha).2
      rw [keys_node, List.countP_append, List.countP_cons]
      by_cases h1 : key < k
      · have hcr : (keys r).countP (fun a => decide (a < key)) = 0 := by
          rw [List.countP_eq_zero]
          intro a ha
          simp only [decide_eq_true_eq]
          exact fun hc => absurd (lt_trans h1 (hkr a ha)) (not_lt.mpr (le_of_lt hc))
        rw [rankLoop, if_pos h1, ihl key acc lo (some k) hBl hSl, hcr]
        simp [not_lt.mpr (le_of_lt h1), h1]
      · by_cases h2 : key = k
        · subst h2
          have hcl : (keys l).countP (fun a => decide (a < key)) = (keys l).length := by
            rw [List.countP_eq_length]
            intro a ha
            simp only [decide_eq_true_eq]
            exact hkl a ha
          have hcr : (keys r).countP (fun a => decide (a < key)) = 0 := by
            rw [List.countP_eq_zero]
            intro a ha
            simp only [decide_eq_true_eq]
            exact fun hc => absurd (hkr a ha) (not_lt.mpr (le_of_lt hc))
          rw [rankLoop, if_neg h1, if_pos rfl, hcl, hcr,
            size_eq_keys_length hSl]
          simp
        · have hk2 : k < key :=
            lt_of_le_of_ne (not_lt.mp h1) (fun hc => h2 hc.symm)
          have hcl : (keys l).countP (fun a => decide (a < key)) = (keys l).length := by
            rw [List.countP_eq_length]
            intro a ha
            simp only [decide_eq_true_eq]
            exact lt_trans (hkl a ha) hk2
          rw [rankLoop, if_neg h1, if_neg h2,
            ihr key (acc + size l + 1) (some k) hi hBr hSr, hcl,
            size_eq_keys_length hSl]
          simp [hk2]
          omega

theorem kthLoop_ne_some_nil :
    ∀ (t : N K V) (k : Int), kthLoop t k ≠ some nil := by
  intro t
  induction t with
  | nil => intro k h; exact Option.noConfusion h
  | node key v hh ss i p l r ihl ihr =>
      intro k h
      rw [kthLoop] at h
      by_cases h1 : k < (size l : Int)
      · rw [if_pos h1] at h; exact ihl k h
      · rw [if_neg h1] at h
        by_cases h2 : (size l : Int) < k
        · rw [if_pos h2] at h; exact ihr (k - size l - 1) h
        · rw [if_neg h2] at h
          exact N.noConfusion (Option.some.inj h)

/-- The `Kth` loop is positional lookup in the in-order entry list; negative
indices and indices past the size fall off and return not-found. -/
theorem kthLoop_spec :
    ∀ (t : N K V) (k : Int), SzOk t →
      (kthLoop t k).bind rootEntry
        = if 0 ≤ k then (entries t)[k.toNat]? else none := by
  intro t
  induction t with
  | nil =>
      intro k _
      rw [kthLoop]
      simp
  | node key v hh ss i p l r ihl ihr =>
      intro k hS
      obtain ⟨hssEq, hSl, hSr⟩ := hS
      have hlen : size l = (entries l).length := size_eq_length hSl
      rw [kthLoop, entries_node]
      by_cases h1 : k < (size l : Int)
      · rw [if_pos h1, ihl k hSl]
        by_cases h0 : 0 ≤ k
        · rw [if_pos h0, if_pos h0, List.getElem?_append,
            if_pos (show k.toNat < (entries l).length by omega)]
        · rw [if_neg h0, if_neg h0]
      · rw [if_neg h1]
        by_cases h2 : (size l : Int) < k
        · rw [if_pos h2, ihr (k - size l - 1) hSr,
            if_pos (by omega), if_pos (by omega), List.getElem?_append,
            if_neg (show ¬ k.toNat < (entries l).length by omega),
            List.getElem?_cons]
          have : ¬ (k.toNat - (entries l).length = 0) := by omega
          rw [if_neg this]
          congr 1
          omega
        · rw [if_neg h2]
          have hk : k = (size l : Int) := le_antisymm (not_lt.mp h2) (not_lt.mp h1)
          rw [if_pos (by omega), List.getElem?_append,
            if_neg (show ¬ k.toNat < (entries l).length by omega)]
          have : k.toNat - (entries l).length = 0 := by omega
          rw [List.getElem?_cons, if_pos this]
          rfl

/-- The `Range` walk yields exactly the in-order entries inside `[lo, hi)`;
the pruned right subtrees contain no such entries. -/
theorem rangeList_spec :
    ∀ (t : N K V) (lo hi : K) (bl bh : Option K), Bnd bl bh t →
      rangeList lo hi t
        = (entries t).filter (fun e => decide (lo ≤ e.1) && decide (e.1 < hi)) := by
  intro t
  induction t with
  | nil => intro lo hi bl bh _; rfl
  | node k v hh ss i p l r ihl ihr =>
      intro lo hi bl bh hB
      obtain ⟨hko, hki, hBl, hBr⟩ := hB
      have hkr : ∀ a ∈ keys r, k < a := fun a ha => (keys_bounds hBr a ha).1
      rw [rangeList, entries_node, List.filter_append, List.filter_cons,
        ihl lo hi bl (some k) hBl]
      by_cases hprune : hi ≤ k
      · have hmid : ¬ (lo ≤ k ∧ k < hi) := fun hc => absurd hc.2 (not_lt.mpr hprune)
        have hfr : (entries r).filter
            (fun e => decide (lo ≤ e.1) && decide (e.1 < hi)) = [] := by
          rw [List.filter_eq_nil_iff]
          intro e he
          have : k < e.1 := hkr e.1 (List.mem_map_of_mem Prod.fst he)
          simp only [Bool.and_eq_true, decide_eq_true_eq, not_and]
          exact fun _ => not_lt.mpr (le_trans hprune (le_of_lt this))
        rw [if_pos hprune, hfr]
        simp only [if_neg hmid]
        have : (decide (lo ≤ k) && decide (k < hi)) = false := by
          simp only [Bool.and_eq_false_iff, decide_eq_false_iff_not]
          exact Or.inr (not_lt.mpr hprune)
        rw [this]
        simp
      · rw [if_neg hprune, ihr lo hi (some k) bh hBr]
        by_cases hmid : lo ≤ k ∧ k < hi
        · rw [if_pos hmid]
          have : (decide (lo ≤ k) && decide (k < hi)) = true := by
            simp [hmid.1, hmid.2]
          rw [this]
          simp
        · rw [if_neg hmid]
          have : (decide (lo ≤ k) && decide (k < hi)) = false := by
            rcases not_and_or.mp hmid with hc | hc <;> simp [hc]
          rw [this]
          simp

end N

end AvlGo

/-! ## Navigation lemmas (Floor/Ceiling/Higher and Successor) -/

namespace AvlGo

theorem find?_append_some {α : Type} {p : α → Bool} {xs : List α} {a : α}
    (ys : List α) (h : xs.find? p = some a) : (xs ++ ys).find? p = some a := by
  induction xs with
  | nil => exact Option.noConfusion h
  | cons x t ih =>
      rw [List.cons_append]
      cases hx : p x with
      | true =>
          rw [List.find?_cons_of_pos _ hx] at h ⊢
          exact h
      | false =>
          rw [List.find?_cons_of_neg _ (by simp [hx])] at h ⊢
          exact ih h

theorem find?_append_none {α : Type} {p : α → Bool} {xs : List α}
    (ys : List α) (h : xs.find? p = none) : (xs ++ ys).find? p = ys.find? p := by
  induction xs with
  | nil => rfl
  | cons x t ih =>
      rw [List.cons_append]
      cases hx : p x with
      | true =>
          rw [List.find?_cons_of_pos _ hx] at h
          exact Option.noConfusion h
      | false =>
          rw [List.find?_cons_of_neg _ (by simp [hx])] at h ⊢
          exact ih h

namespace N

variable {K V : Type} [LinearOrder K]

/-- Every node found by the `Search` descent holds the searched key and the
path is valid. -/
theorem searchPath_nodeAt :
    ∀ (t : N K V) (key : K) (pth : List Dir), searchPath key t = some pth →
      nodeAt t pth ≠ nil ∧ rootKey (nodeAt t pth) = some key := by
  intro t
  induction t with
  | nil => intro key pth h; exact Option.noConfusion h
  | node k v hh ss i p l r ihl ihr =>
      intro key pth h
      rw [searchPath] at h
      by_cases h1 : key < k
      · rw [if_pos h1] at h
        cases hq : searchPath key l with
        | none => rw [hq] at h; exact Option.noConfusion h
        | some q =>
            rw [hq] at h
            cases h
            exact ihl key q hq
      · rw [if_neg h1] at h
        by_cases h2 : k < key
        · rw [if_pos h2] at h
          cases hq : searchPath key r with
          | none => rw [hq] at h; exact Option.noConfusion h
          | some q =>
              rw [hq] at h
              cases h
              exact ihr key q hq
        · rw [if_neg h2] at h
          cases h
          have hk : k = key := le_antisymm (not_lt.mp h1) (not_lt.mp h2)
          exact ⟨fun hc => N.noConfusion hc, by rw [nodeAt, rootKey, hk]⟩

theorem upSuccRev_append_left_none {xs : List Dir} (h : upSuccRev xs = none) :
    upSuccRev (xs ++ [Dir.left]) = some [] := by
  induction xs with
  | nil => rfl
  | cons d t ih =>
      cases d with
      | left => rw [upSuccRev] at h; exact Option.noConfusion h
      | right =>
          rw [upSuccRev] at h
          rw [List.cons_append, upSuccRev]
          exact ih h

theorem upSuccRev_append_left_some {xs q : List Dir} (h : upSuccRev xs = some q) :
    upSuccRev (xs ++ [Dir.left]) = some (q ++ [Dir.left]) := by
  induction xs generalizing q with
  | nil => exact Option.noConfusion h
  | cons d t ih =>
      cases d with
      | left =>
          rw [upSuccRev] at h
          cases h
          rfl
      | right =>
          rw [upSuccRev] at h
          rw [List.cons_append, upSuccRev]
          exact ih h

theorem upSuccRev_append_right_none {xs : List Dir} (h : upSuccRev xs = none) :
    upSuccRev (xs ++ [Dir.right]) = none := by
  induction xs with
  | nil => rfl
  | cons d t ih =>
      cases d with
      | left => rw [upSuccRev] at h; exact Option.noConfusion h
      | right =>
          rw [upSuccRev] at h
          rw [List.cons_append, upSuccRev]
          exact ih h

theorem upSuccRev_append_right_some {xs q : List Dir} (h : upSuccRev xs = some q) :
    upSuccRev (xs ++ [Dir.right]) = some (q ++ [Dir.right]) := by
  induction xs generalizing q with
  | nil => exact Option.noConfusion h
  | cons d t ih =>
      cases d with
      | left =>
          rw [upSuccRev] at h
          cases h
          rfl
      | right =>
          rw [upSuccRev] at h
          rw [List.cons_append, upSuccRev]
          exact ih h

theorem successorAt_cons_left (k : K) (v : V) (hh ss i : Nat) (p : Option Nat)
    {l : N K V} (r : N K V) {pth : List Dir} (hvalid : nodeAt l pth ≠ nil) :
    successorAt (node k v hh ss i p l r) (Dir.left :: pth)
      = match successorAt l pth with
        | some n => some n
        | none => some (node k v hh ss i p l r) := by
  have hstep : nodeAt (node k v hh ss i p l r) (Dir.left :: pth) = nodeAt l pth := rfl
  cases hnl : nodeAt l pth with
  | nil => exact absurd hnl hvalid
  | node mk mv m3 m4 m5 m6 ml mr =>
      cases mr with
      | node nk nv n3 n4 n5 n6 nl nr =>
          have e1 : successorAt (node k v hh ss i p l r) (Dir.left :: pth)
              = some (minNode (node nk nv n3 n4 n5 n6 nl nr)) := by
            rw [successorAt.eq_def, hstep, hnl]
          have e2 : successorAt l pth
              = some (minNode (node nk nv n3 n4 n5 n6 nl nr)) := by
            rw [successorAt.eq_def, hnl]
          rw [e1, e2]
      | nil =>
          have e1 : successorAt (node k v hh ss i p l r) (Dir.left :: pth)
              = (upSuccRev (pth.reverse ++ [Dir.left])).map
                  (fun q => nodeAt (node k v hh ss i p l r) q.reverse) := by
            rw [successorAt.eq_def, hstep, hnl, List.reverse_cons]
          have e2 : successorAt l pth
              = (upSuccRev pth.reverse).map (fun q => nodeAt l q.reverse) := by
            rw [successorAt.eq_def, hnl]
          rw [e1, e2]
          cases hup : upSuccRev pth.reverse with
          | none =>
              rw [upSuccRev_append_left_none hup]
              rfl
          | some q =>
              rw [upSuccRev_append_left_some hup]
              simp only [Option.map_some']
              have hrev : (q ++ [Dir.left]).reverse = Dir.left :: q.reverse := by
                rw [List.reverse_append]
                rfl
              rw [hrev]
              rfl

theorem successorAt_cons_right (k : K) (v : V) (hh ss i : Nat) (p : Option Nat)
    (l : N K V) {r : N K V} {pth : List Dir} (hvalid : nodeAt r pth ≠ nil) :
    successorAt (node k v hh ss i p l r) (Dir.right :: pth)
      = successorAt r pth := by
  have hstep : nodeAt (node k v hh ss i p l r) (Dir.right :: pth) = nodeAt r pth := rfl
  cases hnl : nodeAt r pth with
  | nil => exact absurd hnl hvalid
  | node mk mv m3 m4 m5 m6 ml mr =>
      cases mr with
      | node nk nv n3 n4 n5 n6 nl nr =>
          have e1 : successorAt (node k v hh ss i p l r) (Dir.right :: pth)
              = some (minNode (node nk nv n3 n4 n5 n6 nl nr)) := by
            rw [successorAt.eq_def, hstep, hnl]
          have e2 : successorAt r pth
              = some (minNode (node nk nv n3 n4 n5 n6 nl nr)) := by
            rw [successorAt.eq_def, hnl]
          rw [e1, e2]
      | nil =>
          have e1 : successorAt (node k v hh ss i p l r) (Dir.right :: pth)
              = (upSuccRev (pth.reverse ++ [Dir.right])).map
                  (fun q => nodeAt (node k v hh ss i p l r) q.reverse) := by
            rw [successorAt.eq_def, hstep, hnl, List.reverse_cons]
          have e2 : successorAt r pth
              = (upSuccRev pth.reverse).map (fun q => nodeAt r q.reverse) := by
            rw [successorAt.eq_def, hnl]
          rw [e1, e2]
          cases hup : upSuccRev pth.reverse with
          | none =>
              rw [upSuccRev_append_right_none hup]
              rfl
          | some q =>
              rw [upSuccRev_append_right_some hup]
              simp only [Option.map_some']
              have hrev : (q ++ [Dir.right]).reverse = Dir.right :: q.reverse := by
                rw [List.reverse_append]
                rfl
              rw [hrev]
              rfl

theorem isSub_minNode : ∀ (t : N K V), t ≠ nil → IsSub (minNode t) t := by
  intro t
  induction t with
  | nil => exact fun h => absurd rfl h
  | node k v hh ss i p l r ihl ihr =>
      intro _
      cases l with
      | nil => exact Or.inl rfl
      | node lk lv lh ls li lp la lb =>
          rw [minNode]
          exact Or.inr (Or.inl (ihl (fun h => N.noConfusion h)))

theorem rootKey_eq_map (t : N K V) : rootKey t = (rootEntry t).map Prod.fst := by
  cases t <;> rfl

theorem rootKey_minNode (t : N K V) : rootKey (minNode t) = (keys t).head? := by
  rw [rootKey_eq_map, rootEntry_minNode, keys, List.head?_map]

theorem isSub_keys_subset : ∀ {s t : N K V}, IsSub s t → ∀ a ∈ keys s, a ∈ keys t := by
  intro s t
  induction t with
  | nil =>
      intro h
      rw [show IsSub s nil = (s = nil) from rfl] at h
      subst h
      intro a ha
      exact ha
  | node k v hh ss i p l r ihl ihr =>
      intro h a ha
      rcases h with rfl | h | h
      · exact ha
      · rw [keys_node, List.mem_append]
        exact Or.inl (ihl h a ha)
      · rw [keys_node, List.mem_append, List.mem_cons]
        exact Or.inr (Or.inr (ihr h a ha))

theorem rootKey_mem_keys {t : N K V} {a : K} (h : rootKey t = some a) : a ∈ keys t := by
  cases t with
  | nil => exact Option.noConfusion h
  | node k v hh ss i p l r =>
      rw [rootKey] at h
      cases h
      rw [keys_node, List.mem_append, List.mem_cons]
      exact Or.inr (Or.inl rfl)

/-- In a BST, two subtree occurrences with the same root key are the same
node. -/
theorem subtree_unique :
    ∀ {t : N K V} {lo hi : Option K}, Bnd lo hi t → ∀ {n1 n2 : N K V} {a : K},
      IsSub n1 t → IsSub n2 t → rootKey n1 = some a → rootKey n2 = some a →
      n1 = n2 := by
  intro t
  induction t with
  | nil =>
      intro lo hi _ n1 n2 a h1 h2 k1 _
      rw [show IsSub n1 nil = (n1 = nil) from rfl] at h1
      subst h1
      exact Option.noConfusion k1
  | node k v hh ss i p l r ihl ihr =>
      intro lo hi hB n1 n2 a h1 h2 k1 k2
      obtain ⟨hko, hki, hBl, hBr⟩ := hB
      have hkr : ∀ b ∈ keys r, k < b := fun b hb => (keys_bounds hBr b hb).1
      have hkl : ∀ b ∈ keys l, b < k := fun b hb => (keys_bounds hBl b hb).2
      have memL : ∀ {n : N K V}, IsSub n l → rootKey n = some a → a < k :=
        fun h hk => hkl a (isSub_keys_subset h a (rootKey_mem_keys hk))
      have memR : ∀ {n : N K V}, IsSub n r → rootKey n = some a → k < a :=
        fun h hk => hkr a (isSub_keys_subset h a (rootKey_mem_keys hk))
      rcases h1 with rfl | h1 | h1
      · rcases h2 with rfl | h2 | h2
        · rfl
        · rw [rootKey] at k1
          cases k1
          exact absurd (memL h2 k2) (lt_irrefl _)
        · rw [rootKey] at k1
          cases k1
          exact absurd (memR h2 k2) (lt_irrefl _)
      · rcases h2 with rfl | h2 | h2
        · rw [rootKey] at k2
          cases k2
          exact absurd (memL h1 k1) (lt_irrefl _)
        · exact ihl hBl h1 h2 k1 k2
        · exact absurd (lt_trans (memL h1 k1) (memR h2 k2)) (lt_irrefl _)
      · rcases h2 with rfl | h2 | h2
        · rw [rootKey] at k2
          cases k2
          exact absurd (memR h1 k1) (lt_irrefl _)
        · exact absurd (lt_trans (memL h2 k2) (memR h1 k1)) (lt_irrefl _)
        · exact ihr hBr h1 h2 k1 k2

/-- `Floor` returns exactly the node `Search` finds, when it finds one. -/
theorem floorLoop_of_search :
    ∀ (t : N K V) (key : K) (n : N K V), searchNode t key = some n →
      ∀ acc, floorLoop key t acc = some n := by
  intro t
  induction t with
  | nil => intro key n h; exact Option.noConfusion h
  | node k v hh ss i p l r ihl ihr =>
      intro key n h acc
      rw [searchNode] at h
      rw [floorLoop]
      by_cases h1 : key < k
      · have hne : ¬ key = k := ne_of_lt h1
        rw [if_pos h1] at h
        rw [if_neg hne, if_pos h1]
        exact ihl key n h acc
      · rw [if_neg h1] at h
        by_cases h2 : k < key
        · have hne : ¬ key = k := fun hc => absurd (hc ▸ h2) (lt_irrefl key)
          rw [if_pos h2] at h
          rw [if_neg hne, if_neg h1]
          exact ihr key n h _
        · have hk : key = k := le_antisymm (not_lt.mp h2) (not_lt.mp h1)
          rw [if_neg h2] at h
          rw [if_pos hk]
          exact h

/-- `Ceiling` returns exactly the node `Search` finds, when it finds one. -/
theorem ceilingLoop_of_search :
    ∀ (t : N K V) (key : K) (n : N K V), searchNode t key = some n →
      ∀ acc, ceilingLoop key t acc = some n := by
  intro t
  induction t with
  | nil => intro key n h; exact Option.noConfusion h
  | node k v hh ss i p l r ihl ihr =>
      intro key n h acc
      rw [searchNode] at h
      rw [ceilingLoop]
      by_cases h1 : key < k
      · have hne : ¬ key = k := ne_of_lt h1
        rw [if_pos h1] at h
        rw [if_neg hne, if_pos h1]
        exact ihl key n h _
      · rw [if_neg h1] at h
        by_cases h2 : k < key
        · have hne : ¬ key = k := fun hc => absurd (hc ▸ h2) (lt_irrefl key)
          rw [if_pos h2] at h
          rw [if_neg hne, if_neg h1]
          exact ihr key n h acc
        · have hk : key = k := le_antisymm (not_lt.mp h2) (not_lt.mp h1)
          rw [if_neg h2] at h
          rw [if_pos hk]
          exact h

end N

end AvlGo

namespace AvlGo

namespace N

variable {K V : Type} [LinearOrder K]

/-- The `Higher` loop returns the node of the least key strictly above `key`
when one exists, and otherwise returns its accumulated candidate. -/
theorem higherLoop_spec :
    ∀ (t : N K V) (key : K) (lo hi : Option K), Bnd lo hi t →
      ∀ acc : Option (N K V),
      ((keys t).find? (fun a => decide (key < a)) = none → higherLoop key t acc = acc)
      ∧ (∀ a, (keys t).find? (fun a => decide (key < a)) = some a →
          ∃ n, higherLoop key t acc = some n ∧ IsSub n t ∧ rootKey n = some a) := by
  intro t
  induction t with
  | nil =>
      intro key lo hi _ acc
      exact ⟨fun _ => rfl, fun a h => Option.noConfusion h⟩
  | node k v hh ss i p l r ihl ihr =>
      intro key lo hi hB acc
      obtain ⟨hko, hki, hBl, hBr⟩ := hB
      have hkl : ∀ a ∈ keys l, a < k := fun a ha => (keys_bounds hBl a ha).2
      rw [keys_node]
      by_cases h1 : key < k
      · have hloop : higherLoop key (node k v hh ss i p l r) acc
            = higherLoop key l (some (node k v hh ss i p l r)) := by
          rw [higherLoop, if_pos h1]
        rw [hloop]
        obtain ⟨ih1, ih2⟩ := ihl key lo (some k) hBl (some (node k v hh ss i p l r))
        constructor
        · intro hfind
          exfalso
          cases hfl : (keys l).find? (fun a => decide (key < a)) with
          | some b =>
              rw [find?_append_some _ hfl] at hfind
              exact Option.noConfusion hfind
          | none =>
              rw [find?_append_none _ hfl,
                List.find?_cons_of_pos _ (by simp [h1])] at hfind
              exact Option.noConfusion hfind
        · intro a hfind
          cases hfl : (keys l).find? (fun a => decide (key < a)) with
          | some b =>
              rw [find?_append_some _ hfl] at hfind
              cases hfind
              obtain ⟨n, hn, hsub, hkey⟩ := ih2 a hfl
              exact ⟨n, hn, Or.inr (Or.inl hsub), hkey⟩
          | none =>
              rw [find?_append_none _ hfl,
                List.find?_cons_of_pos _ (by simp [h1])] at hfind
              cases hfind
              exact ⟨node k v hh ss i p l r, ih1 hfl, Or.inl rfl, rfl⟩
      · have hloop : higherLoop key (node k v hh ss i p l r) acc
            = higherLoop key r acc := by
          rw [higherLoop, if_neg h1]
        rw [hloop]
        obtain ⟨ih1, ih2⟩ := ihr key (some k) hi hBr acc
        have hfl : (keys l).find? (fun a => decide (key < a)) = none := by
          rw [List.find?_eq_none]
          intro a ha
          simp only [decide_eq_true_eq]
          exact fun hc => h1 (lt_trans hc (hkl a ha))
        rw [find?_append_none _ hfl, List.find?_cons_of_neg _ (by simp [h1])]
        constructor
        · exact ih1
        · intro a hfind
          obtain ⟨n, hn, hsub, hkey⟩ := ih2 a hfind
          exact ⟨n, hn, Or.inr (Or.inr hsub), hkey⟩

/-- `Successor` of the node `Search` reaches returns the node of the least
key strictly above the searched key, when one exists. -/
theorem successorAt_search_spec :
    ∀ (t : N K V) (key : K) (pth : List Dir) (lo hi : Option K), Bnd lo hi t →
      searchPath key t = some pth →
      ((keys t).find? (fun a => decide (key < a)) = none → successorAt t pth = none)
      ∧ (∀ a, (keys t).find? (fun a => decide (key < a)) = some a →
          ∃ n, successorAt t pth = some n ∧ IsSub n t ∧ rootKey n = some a) := by
  intro t
  induction t with
  | nil =>
      intro key pth lo hi _ hsp
      exact Option.noConfusion hsp
  | node k v hh ss i p l r ihl ihr =>
      intro key pth lo hi hB hsp
      obtain ⟨hko, hki, hBl, hBr⟩ := hB
      have hkr : ∀ a ∈ keys r, k < a := fun a ha => (keys_bounds hBr a ha).1
      have hkl : ∀ a ∈ keys l, a < k := fun a ha => (keys_bounds hBl a ha).2
      rw [searchPath] at hsp
      rw [keys_node]
      by_cases h1 : key < k
      · rw [if_pos h1] at hsp
        cases hq : searchPath key l with
        | none => rw [hq] at hsp; exact Option.noConfusion hsp
        | some q =>
            rw [hq] at hsp
            cases hsp
            have hvalid := (searchPath_nodeAt l key q hq).1
            have hsucc := successorAt_cons_left k v hh ss i p r hvalid
            obtain ⟨ih1, ih2⟩ := ihl key q lo (some k) hBl hq
            constructor
            · intro hfind
              exfalso
              cases hfl : (keys l).find? (fun a => decide (key < a)) with
              | some b =>
                  rw [find?_append_some _ hfl] at hfind
                  exact Option.noConfusion hfind
              | none =>
                  rw [find?_append_none _ hfl,
                    List.find?_cons_of_pos _ (by simp [h1])] at hfind
                  exact Option.noConfusion hfind
            · intro a hfind
              cases hfl : (keys l).find? (fun a => decide (key < a)) with
              | some b =>
                  rw [find?_append_some _ hfl] at hfind
                  cases hfind
                  obtain ⟨n, hn, hsub, hkey⟩ := ih2 a hfl
                  rw [hsucc, hn]
                  exact ⟨n, rfl, Or.inr (Or.inl hsub), hkey⟩
              | none =>
                  rw [find?_append_none _ hfl,
                    List.find?_cons_of_pos _ (by simp [h1])] at hfind
                  cases hfind
                  rw [hsucc, ih1 hfl]
                  exact ⟨node k v hh ss i p l r, rfl, Or.inl rfl, rfl⟩
      · rw [if_neg h1] at hsp
        have hfl : (keys l).find? (fun a => decide (key < a)) = none := by
          rw [List.find?_eq_none]
          intro a ha
          simp only [decide_eq_true_eq]
          exact fun hc => h1 (lt_trans hc (hkl a ha))
        by_cases h2 : k < key
        · rw [if_pos h2] at hsp
          cases hq : searchPath key r with
          | none => rw [hq] at hsp; exact Option.noConfusion hsp
          | some q =>
              rw [hq] at hsp
              cases hsp
              have hvalid := (searchPath_nodeAt r key q hq).1
              have hsucc := successorAt_cons_right k v hh ss i p l hvalid
              obtain ⟨ih1, ih2⟩ := ihr key q (some k) hi hBr hq
              rw [find?_append_none _ hfl, List.find?_cons_of_neg _ (by simp [h1]),
                hsucc]
              constructor
              · exact ih1
              · intro a hfind
                obtain ⟨n, hn, hsub, hkey⟩ := ih2 a hfind
                exact ⟨n, hn, Or.inr (Or.inr hsub), hkey⟩
        · rw [if_neg h2] at hsp
          cases hsp
          have hk : k = key := le_antisymm (not_lt.mp h1) (not_lt.mp h2)
          rw [find?_append_none _ hfl, List.find?_cons_of_neg _ (by simp [h1])]
          cases r with
          | nil =>
              constructor
              · intro _; rfl
              · intro a hfind
                exact Option.noConfusion hfind
          | node rk rv r3 r4 r5 r6 ra rb =>
              obtain ⟨e, es, hE⟩ :=
                List.exists_cons_of_ne_nil (entries_ne_nil rk rv r3 r4 r5 r6 ra rb)
              have hkeysR : keys (node rk rv r3 r4 r5 r6 ra rb)
                  = e.1 :: es.map Prod.fst := by
                rw [keys, hE, List.map_cons]
              have hmemb : e.1 ∈ keys (node rk rv r3 r4 r5 r6 ra rb) := by
                rw [hkeysR]
                exact List.mem_cons_self _ _
              have hkb : key < e.1 := hk ▸ hkr e.1 hmemb
              rw [hkeysR, List.find?_cons_of_pos _ (by simp [hkb])]
              constructor
              · intro hfind; exact Option.noConfusion hfind
              · intro a hfind
                cases hfind
                refine ⟨minNode (node rk rv r3 r4 r5 r6 ra rb), rfl,
                  Or.inr (Or.inr (isSub_minNode _ (fun hc => N.noConfusion hc))), ?_⟩
                rw [rootKey_minNode, hkeysR]
                rfl

end N

end AvlGo

/-! ## Claim theorems -/

namespace AvlGo

variable {K V : Type} [LinearOrder K]

/-- C1: for every tree built from the empty tree by any sequence of Insert
and Delete operations, every node satisfies the AVL balance condition
`|height(left) - height(right)| ≤ 1` (on real heights), the size recurrence
`size(n) = 1 + size(left) + size(right)` (absent child contributing 0), and
the in-order key sequence is strictly ascending.  Each prefix of a sequence
is itself a sequence, so this covers the state after each operation. -/
theorem claim_C1 (ops : List (Op K V)) :
    N.BalancedR (build ops).root
    ∧ N.SzOk (build ops).root
    ∧ (N.keys (build ops).root).Pairwise (· < ·) := by
  obtain ⟨hH, hS, hb, hB, _⟩ := wf_build ops
  exact ⟨N.balancedR_of_bal hH hb, hS, N.sorted_of_bnd hB⟩

/-- C2: on a well-formed tree, after `Insert(t, k, v)` a `Search(t, k)`
returns a found node whose value is `v`; after `Delete(t, k)` a
`Search(t, k)` returns not-found. -/
theorem claim_C2 (t : T K V) (key : K) (value : V) (h : WF t) :
    ((T.Search (t.Insert key value).1 key).bind N.rootValue = some value)
    ∧ T.Search (t.Delete key).1 key = none := by
  obtain ⟨hH, hS, hb, hB, hP⟩ := h
  constructor
  · obtain ⟨_, _, _, hBnd1, hE1, _⟩ :=
      N.insertRec_spec t.root key value none t.nextId none none hB hH hS hb
        trivial trivial
    have hs := N.searchNode_entries hBnd1 key
    rw [hE1, lookupKV_insKV_self] at hs
    exact hs
  · obtain ⟨_, _, _, hBnd2, hE2, _⟩ := N.deleteRec_spec t.root key none none hB hH hS hb
    have hBnd2' : N.Bnd none none (N.setParent (N.deleteRec t.root key).1 none) := by
      rw [N.Bnd_setParent]
      exact hBnd2
    have hs := N.searchNode_entries hBnd2' key
    rw [N.entries_setParent, hE2,
      lookupKV_eraseKV_sorted (N.sorted_of_bnd hB)] at hs
    show N.searchNode (N.setParent (N.deleteRec t.root key).1 none) key = none
    cases hfound : N.searchNode (N.setParent (N.deleteRec t.root key).1 none) key with
    | none => rfl
    | some n =>
        exfalso
        have hk := N.searchNode_key hfound
        rw [hfound] at hs
        cases n with
        | nil => exact Option.noConfusion hk
        | node k2 v2 h2 s2 i2 p2 l2 r2 => exact Option.noConfusion hs

/-- C3: on a well-formed tree, `Rank(t, key)` is the number of keys in the
tree strictly less than `key` — the 0-based sorted position `key` occupies
or would occupy. -/
theorem claim_C3 (t : T K V) (key : K) (h : WF t) :
    T.Rank t key = (N.keys t.root).countP (fun a => decide (a < key)) := by
  obtain ⟨hH, hS, hb, hB, hP⟩ := h
  have := N.rankLoop_spec t.root key 0 none none hB hS
  rw [Nat.zero_add] at this
  exact this

/-- C4: on a well-formed tree, `Kth(t, k)` returns the node whose entry sits
at 0-based in-order (ascending) position `k` when `0 ≤ k < Len(t)`, and
not-found for every `k` outside that range, negative `k` included. -/
theorem claim_C4 (t : T K V) (k : Int) (h : WF t) :
    (0 ≤ k → k < (T.Len t : Int) →
      ∃ n, T.Kth t k = some n ∧ N.rootEntry n = (T.InOrder t)[k.toNat]?)
    ∧ ((k < 0 ∨ (T.Len t : Int) ≤ k) → T.Kth t k = none) := by
  obtain ⟨hH, hS, hb, hB, hP⟩ := h
  have heq := N.kthLoop_spec t.root k hS
  have hlen : T.Len t = (N.entries t.root).length := N.size_eq_length hS
  constructor
  · intro h0 hlt
    rw [if_pos h0] at heq
    have hidx : k.toNat < (N.entries t.root).length := by omega
    rw [List.getElem?_eq_getElem hidx] at heq
    obtain ⟨n, hn, hent⟩ := Option.bind_eq_some.mp heq
    refine ⟨n, hn, ?_⟩
    rw [hent, T.InOrder, List.getElem?_eq_getElem hidx]
  · intro hcase
    have hnone : (N.kthLoop t.root k).bind N.rootEntry = none := by
      rcases hcase with hneg | hge
      · rw [heq, if_neg (not_le.mpr hneg)]
      · rw [heq, if_pos (by omega), List.getElem?_eq_none]
        omega
    cases hfound : N.kthLoop t.root k with
    | none => exact hfound
    | some n =>
        exfalso
        rw [hfound] at hnone
        cases n with
        | nil => exact N.kthLoop_ne_some_nil t.root k hfound
        | node k2 v2 h2 s2 i2 p2 l2 r2 => exact Option.noConfusion hnone

/-- C5: on a well-formed tree, `Range(t, from, to)` yields exactly the
subsequence of `InOrder(t)` whose keys satisfy `from ≤ key < to`, in the
same order. -/
theorem claim_C5 (t : T K V) (lo hi : K) (h : WF t) :
    T.Range t lo hi
      = (T.InOrder t).filter (fun e => decide (lo ≤ e.1) && decide (e.1 < hi)) :=
  N.rangeList_spec t.root lo hi none none h.2.2.2.1

/-- C6: after any sequence of public operations starting from the empty tree,
parent back-references are consistent: every child's parent field holds the
identity of the node owning it, and the root's parent is absent. -/
theorem claim_C6 (ops : List (Op K V)) : N.ParentOk (build ops).root none :=
  (wf_build ops).2.2.2.2

/-- C7 (corrected): on a well-formed tree, `Insert(t, k, v1)` returns true
exactly when `k` was absent (not unconditionally, as the claim states); the
second `Insert(k, v2)` returns false, after which `Search(k)` yields `v2`
and `Len` equals its value after the first insert. -/
theorem claim_C7 (t : T K V) (k : K) (v1 v2 : V) (h : WF t) :
    ((t.Insert k v1).2 = true ↔ k ∉ N.keys t.root)
    ∧ (((t.Insert k v1).1.Insert k v2).2 = false)
    ∧ ((T.Search ((t.Insert k v1).1.Insert k v2).1 k).bind N.rootValue = some v2)
    ∧ T.Len ((t.Insert k v1).1.Insert k v2).1 = T.Len (t.Insert k v1).1 := by
  obtain ⟨hH, hS, hb, hB, hP⟩ := h
  obtain ⟨_, _, _, _, hE1, _, _, _, hins1, _⟩ :=
    N.insertRec_spec t.root k v1 none t.nextId none none hB hH hS hb
      trivial trivial
  obtain ⟨hH1, hS1, hb1, hB1, hP1⟩ := WF_Insert ⟨hH, hS, hb, hB, hP⟩ k v1
  obtain ⟨_, _, _, hB2, hE2, _, _, _, hins2, hsz2⟩ :=
    N.insertRec_spec (t.Insert k v1).1.root k v2 none (t.Insert k v1).1.nextId
      none none hB1 hH1 hS1 hb1 trivial trivial
  have hmem : k ∈ N.keys (t.Insert k v1).1.root := by
    have : N.keys (t.Insert k v1).1.root
        = (insKV k v1 (N.entries t.root)).map Prod.fst := by
      rw [N.keys, show (t.Insert k v1).1.root = (N.insertRec t.root k v1 none t.nextId).1
        from rfl, hE1]
    rw [this]
    exact mem_keys_insKV k v1 (N.entries t.root)
  have hsnd : ((t.Insert k v1).1.Insert k v2).2 = false := by
    cases hc : ((t.Insert k v1).1.Insert k v2).2 with
    | false => rfl
    | true =>
        exfalso
        have : ((t.Insert k v1).1.Insert k v2).2
            = (N.insertRec (t.Insert k v1).1.root k v2 none
                (t.Insert k v1).1.nextId).2 := rfl
        rw [this] at hc
        exact (hins2.mp hc) hmem
  refine ⟨hins1, hsnd, ?_, ?_⟩
  · have hs := N.searchNode_entries hB2 k
    rw [hE2, lookupKV_insKV_self] at hs
    exact hs
  · have : ((t.Insert k v1).1.Insert k v2).2
        = (N.insertRec (t.Insert k v1).1.root k v2 none
            (t.Insert k v1).1.nextId).2 := rfl
    rw [this] at hsnd
    rw [hsnd] at hsz2
    simpa using hsz2

/-- C9: on a well-formed tree, deleting a key that is not present returns
false and leaves the tree entirely unchanged (same structure, keys, values,
metadata and parent fields). -/
theorem claim_C9 (t : T K V) (key : K) (h : WF t)
    (hmem : key ∉ N.keys t.root) : t.Delete key = (t, false) := by
  obtain ⟨hH, hS, hb, hB, hP⟩ := h
  have hd := N.deleteRec_not_mem t.root key none none hB hH hS hb hmem
  show (⟨N.setParent (N.deleteRec t.root key).1 none, t.nextId⟩,
    (N.deleteRec t.root key).2) = (t, false)
  rw [hd]
  show (⟨N.setParent t.root none, t.nextId⟩, false) = (t, false)
  rw [N.setParent_eq_of_parentOk hP]

/-- C10: on a well-formed tree, `Insert` returns true iff `Len` grows by
exactly one and false iff `Len` is unchanged, and `Delete` returns true iff
`Len` shrinks by exactly one and false iff `Len` is unchanged. -/
theorem claim_C10 (t : T K V) (key : K) (value : V) (h : WF t) :
    (((t.Insert key value).2 = true ↔ T.Len (t.Insert key value).1 = T.Len t + 1)
      ∧ ((t.Insert key value).2 = false ↔ T.Len (t.Insert key value).1 = T.Len t))
    ∧ (((t.Delete key).2 = true ↔ T.Len (t.Delete key).1 + 1 = T.Len t)
      ∧ ((t.Delete key).2 = false ↔ T.Len (t.Delete key).1 = T.Len t)) := by
  obtain ⟨hH, hS, hb, hB, hP⟩ := h
  obtain ⟨_, hS1, _, _, _, _, _, _, _, hszI⟩ :=
    N.insertRec_spec t.root key value none t.nextId none none hB hH hS hb
      trivial trivial
  obtain ⟨_, hS2, _, _, hE2, _, _, hdel, hszD⟩ :=
    N.deleteRec_spec t.root key none none hB hH hS hb
  have hLI : T.Len (t.Insert key value).1
      = N.size (N.insertRec t.root key value none t.nextId).1 := rfl
  have hLD : T.Len (t.Delete key).1 = N.size (N.deleteRec t.root key).1 := by
    show N.size (N.setParent (N.deleteRec t.root key).1 none) = _
    rw [N.size_setParent]
  have hIb : (t.Insert key value).2
      = (N.insertRec t.root key value none t.nextId).2 := rfl
  have hDb : (t.Delete key).2 = (N.deleteRec t.root key).2 := rfl
  have hszpos : (t.Delete key).2 = true → 1 ≤ T.Len t := by
    intro hc
    rw [hDb] at hc
    rw [hc] at hszD
    simp at hszD
    show 1 ≤ N.size t.root
    omega
  constructor
  · constructor
    · rw [hIb, hLI]
      cases hc : (N.insertRec t.root key value none t.nextId).2 with
      | true =>
          rw [hc] at hszI
          simp at hszI
          simp [hszI]
          rfl
      | false =>
          rw [hc] at hszI
          simp at hszI
          simp [hszI]
          show ¬ (N.size t.root = N.size t.root + 1)
          omega
    · rw [hIb, hLI]
      cases hc : (N.insertRec t.root key value none t.nextId).2 with
      | true =>
          rw [hc] at hszI
          simp at hszI
          simp [hszI]
          show ¬ (N.size t.root + 1 = N.size t.root)
          omega
      | false =>
          rw [hc] at hszI
          simp at hszI
          simp [hszI]
          rfl
  · constructor
    · rw [hDb, hLD]
      cases hc : (N.deleteRec t.root key).2 with
      | true =>
          rw [hc] at hszD
          simp at hszD
          simp
          show N.size (N.deleteRec t.root key).1 + 1 = N.size t.root
          omega
      | false =>
          rw [hc] at hszD
          simp at hszD
          simp
          show ¬ (N.size (N.deleteRec t.root key).1 + 1 = N.size t.root)
          omega
    · rw [hDb, hLD]
      cases hc : (N.deleteRec t.root key).2 with
      | true =>
          rw [hc] at hszD
          simp at hszD
          simp
          show ¬ (N.size (N.deleteRec t.root key).1 = N.size t.root)
          omega
      | false =>
          rw [hc] at hszD
          simp at hszD
          simp
          show N.size (N.deleteRec t.root key).1 = N.size t.root
          omega

end AvlGo

namespace AvlGo

variable {K V : Type} [LinearOrder K]

/-- C8: on a well-formed tree, for a present key, `Floor`, `Ceiling` and
`Search` return the same node; and `Higher` returns the same node as
`Successor` of the node `Search` found (identified by its access path),
whenever both are found. -/
theorem claim_C8 (t : T K V) (key : K) (h : WF t) (n : N K V)
    (hfound : T.Search t key = some n) :
    T.Floor t key = some n ∧ T.Ceiling t key = some n
    ∧ (∀ (pth : List Dir) (n1 n2 : N K V),
        N.searchPath key t.root = some pth →
        T.Higher t key = some n1 → N.successorAt t.root pth = some n2 → n1 = n2) := by
  have hB := h.2.2.2.1
  refine ⟨N.floorLoop_of_search t.root key n hfound none,
    N.ceilingLoop_of_search t.root key n hfound none, ?_⟩
  intro pth n1 n2 hsp hh1 hs2
  obtain ⟨hig1, hig2⟩ := N.higherLoop_spec t.root key none none hB none
  obtain ⟨hsc1, hsc2⟩ := N.successorAt_search_spec t.root key pth none none hB hsp
  cases hfind : (N.keys t.root).find? (fun a => decide (key < a)) with
  | none =>
      rw [show T.Higher t key = N.higherLoop key t.root none from rfl,
        hig1 hfind] at hh1
      exact Option.noConfusion hh1
  | some a =>
      obtain ⟨m1, hm1, hsub1, hkey1⟩ := hig2 a hfind
      obtain ⟨m2, hm2, hsub2, hkey2⟩ := hsc2 a hfind
      rw [show T.Higher t key = N.higherLoop key t.root none from rfl, hm1] at hh1
      rw [hm2] at hs2
      cases hh1
      cases hs2
      exact N.subtree_unique hB hsub1 hsub2 hkey1 hkey2

/-- C7 counterexample: the claim asserts the first of the two inserts returns
true for every tree; on a tree that already contains the key, it returns
false. -/
theorem claim_C7_counterexample :
    ((build [Op.insert (0 : Int) (0 : Int)]).Insert 0 1).2 = false := by decide

end AvlGo

/-! ## Witnesses: the claim theorems applied at concrete inputs -/

namespace AvlGo

theorem claim_C2_witness :
    ((T.Search ((build [Op.insert (10 : Int) (1 : Int), Op.insert 20 2,
        Op.insert 30 3]).Insert 20 7).1 20).bind N.rootValue = some 7)
    ∧ T.Search ((build [Op.insert (10 : Int) (1 : Int), Op.insert 20 2,
        Op.insert 30 3]).Delete 20).1 20 = none :=
  claim_C2 (build [Op.insert 10 1, Op.insert 20 2, Op.insert 30 3]) 20 7 (by decide)

theorem claim_C3_witness :
    T.Rank (build [Op.insert (10 : Int) (1 : Int), Op.insert 20 2,
        Op.insert 30 3]) 25
      = (N.keys (build [Op.insert (10 : Int) (1 : Int), Op.insert 20 2,
        Op.insert 30 3]).root).countP (fun a => decide (a < 25)) :=
  claim_C3 (build [Op.insert 10 1, Op.insert 20 2, Op.insert 30 3]) 25 (by decide)

theorem claim_C4_witness :
    (0 ≤ (1 : Int) → (1 : Int) < (T.Len (build [Op.insert (10 : Int) (1 : Int),
        Op.insert 20 2, Op.insert 30 3]) : Int) →
      ∃ n, T.Kth (build [Op.insert (10 : Int) (1 : Int), Op.insert 20 2,
          Op.insert 30 3]) 1 = some n
        ∧ N.rootEntry n = (T.InOrder (build [Op.insert (10 : Int) (1 : Int),
            Op.insert 20 2, Op.insert 30 3]))[(1 : Int).toNat]?)
    ∧ (((1 : Int) < 0 ∨ (T.Len (build [Op.insert (10 : Int) (1 : Int),
        Op.insert 20 2, Op.insert 30 3]) : Int) ≤ 1) →
      T.Kth (build [Op.insert (10 : Int) (1 : Int), Op.insert 20 2,
        Op.insert 30 3]) 1 = none) :=
  claim_C4 (build [Op.insert 10 1, Op.insert 20 2, Op.insert 30 3]) 1 (by decide)

theorem claim_C5_witness :
    T.Range (build [Op.insert (10 : Int) (1 : Int), Op.insert 20 2,
        Op.insert 30 3]) 15 25
      = (T.InOrder (build [Op.insert (10 : Int) (1 : Int), Op.insert 20 2,
          Op.insert 30 3])).filter
        (fun e => decide ((15 : Int) ≤ e.1) && decide (e.1 < 25)) :=
  claim_C5 (build [Op.insert 10 1, Op.insert 20 2, Op.insert 30 3]) 15 25 (by decide)

theorem claim_C7_witness :
    (((build [Op.insert (10 : Int) (1 : Int), Op.insert 20 2,
        Op.insert 30 3]).Insert 20 7).2 = true
      ↔ (20 : Int) ∉ N.keys (build [Op.insert (10 : Int) (1 : Int), Op.insert 20 2,
        Op.insert 30 3]).root)
    ∧ ((((build [Op.insert (10 : Int) (1 : Int), Op.insert 20 2,
        Op.insert 30 3]).Insert 20 7).1.Insert 20 9).2 = false)
    ∧ ((T.Search ((((build [Op.insert (10 : Int) (1 : Int), Op.insert 20 2,
        Op.insert 30 3]).Insert 20 7).1.Insert 20 9)).1 20).bind N.rootValue = some 9)
    ∧ T.Len ((((build [Op.insert (10 : Int) (1 : Int), Op.insert 20 2,
        Op.insert 30 3]).Insert 20 7).1.Insert 20 9)).1
      = T.Len ((build [Op.insert (10 : Int) (1 : Int), Op.insert 20 2,
        Op.insert 30 3]).Insert 20 7).1 :=
  claim_C7 (build [Op.insert 10 1, Op.insert 20 2, Op.insert 30 3]) 20 7 9 (by decide)

theorem claim_C8_witness :
    T.Floor (build [Op.insert (10 : Int) (1 : Int), Op.insert 20 2,
        Op.insert 30 3]) 20
      = some (N.node 20 2 2 3 1 none (N.node 10 1 1 1 0 (some 1) N.nil N.nil)
          (N.node 30 3 1 1 2 (some 1) N.nil N.nil))
    ∧ T.Ceiling (build [Op.insert (10 : Int) (1 : Int), Op.insert 20 2,
        Op.insert 30 3]) 20
      = some (N.node 20 2 2 3 1 none (N.node 10 1 1 1 0 (some 1) N.nil N.nil)
          (N.node 30 3 1 1 2 (some 1) N.nil N.nil))
    ∧ (∀ (pth : List Dir) (n1 n2 : N Int Int),
        N.searchPath 20 (build [Op.insert (10 : Int) (1 : Int), Op.insert 20 2,
          Op.insert 30 3]).root = some pth →
        T.Higher (build [Op.insert (10 : Int) (1 : Int), Op.insert 20 2,
          Op.insert 30 3]) 20 = some n1 →
        N.successorAt (build [Op.insert (10 : Int) (1 : Int), Op.insert 20 2,
          Op.insert 30 3]).root pth = some n2 → n1 = n2) :=
  claim_C8 (build [Op.insert 10 1, Op.insert 20 2, Op.insert 30 3]) 20 (by decide)
    (N.node 20 2 2 3 1 none (N.node 10 1 1 1 0 (some 1) N.nil N.nil)
      (N.node 30 3 1 1 2 (some 1) N.nil N.nil)) (by decide)

theorem claim_C9_witness :
    (build [Op.insert (10 : Int) (1 : Int), Op.insert 20 2,
        Op.insert 30 3]).Delete 5
      = (build [Op.insert (10 : Int) (1 : Int), Op.insert 20 2,
        Op.insert 30 3], false) :=
  claim_C9 (build [Op.insert 10 1, Op.insert 20 2, Op.insert 30 3]) 5
    (by decide) (by decide)

theorem claim_C10_witness :
    ((((build [Op.insert (10 : Int) (1 : Int), Op.insert 20 2,
        Op.insert 30 3]).Insert 25 7).2 = true
      ↔ T.Len ((build [Op.insert (10 : Int) (1 : Int), Op.insert 20 2,
          Op.insert 30 3]).Insert 25 7).1
        = T.Len (build [Op.insert (10 : Int) (1 : Int), Op.insert 20 2,
          Op.insert 30 3]) + 1)
      ∧ (((build [Op.insert (10 : Int) (1 : Int), Op.insert 20 2,
        Op.insert 30 3]).Insert 25 7).2 = false
      ↔ T.Len ((build [Op.insert (10 : Int) (1 : Int), Op.insert 20 2,
          Op.insert 30 3]).Insert 25 7).1
        = T.Len (build [Op.insert (10 : Int) (1 : Int), Op.insert 20 2,
          Op.insert 30 3])))
    ∧ ((((build [Op.insert (10 : Int) (1 : Int), Op.insert 20 2,
        Op.insert 30 3]).Delete 25).2 = true
      ↔ T.Len ((build [Op.insert (10 : Int) (1 : Int), Op.insert 20 2,
          Op.insert 30 3]).Delete 25).1 + 1
        = T.Len (build [Op.insert (10 : Int) (1 : Int), Op.insert 20 2,
          Op.insert 30 3]))
      ∧ (((build [Op.insert (10 : Int) (1 : Int), Op.insert 20 2,
        Op.insert 30 3]).Delete 25).2 = false
      ↔ T.Len ((build [Op.insert (10 : Int) (1 : Int), Op.insert 20 2,
          Op.insert 30 3]).Delete 25).1
        = T.Len (build [Op.insert (10 : Int) (1 : Int), Op.insert 20 2,
          Op.insert 30 3]))) :=
  claim_C10 (build [Op.insert 10 1, Op.insert 20 2, Op.insert 30 3]) 25 7 (by decide)

end AvlGo
